import Mathlib

/-!
The push reconciler of buf-push-action.

A shallow embedding of `internal/bufpushaction/bufpushaction.go` and
`internal/bufpushaction/push.go`, and the properties of `push` proved on it.

* Go strings are Lean strings; `len` and `hex.DecodeString` work on the UTF-8
  bytes of a string, given by `goBytes`.
* The registry provider, the git-host client, the module reader and the `%q`
  verb of `fmt` are not part of the two files. They are the fields of
  `Collaborators`: each answers a call by its arguments, and every theorem
  holds for all of them. Where the context carries a provider or a client
  (`getRegistryProvider`, `getGithubClient`), the fields describe the one in
  effect.
* A run of `push` is a `Run`: how it ended, the lines written to standard
  output, and the calls made over the network, in order. Making a service or a
  client is no call.
-/

namespace BufPushAction

/-! ## Constants of bufpushaction.go -/

def githubRepositoryKey : String := "GITHUB_REPOSITORY"
def githubRefNameKey : String := "GITHUB_REF_NAME"
def githubRefTypeKey : String := "GITHUB_REF_TYPE"
def githubSHAKey : String := "GITHUB_SHA"

def commitOutputID : String := "commit"
def commitURLOutputID : String := "commit_url"

def defaultBranchInput : String := "INPUT_DEFAULT_BRANCH"
def githubTokenInput : String := "INPUT_GITHUB_TOKEN"
def inputInput : String := "INPUT_INPUT"
def trackInput : String := "INPUT_TRACK"

def githubRefTypeBranch : String := "branch"

/-! ## Data -/

/-- The codes `rpc.GetErrorCode` can report, as far as push.go tells them apart. -/
inductive ErrorCode where
  | alreadyExists
  | notFound
  | other
deriving DecidableEq, Repr

/-- A Go `error` value: its text, what `rpc.GetErrorCode` reports for it, and
what `github.IsNotFoundError` reports for it. -/
structure Error where
  text : String
  code : ErrorCode
  ghNotFound : Bool
deriving DecidableEq, Repr

/-- An error made by `errors.New` or `fmt.Errorf` in this package: it carries
no rpc code and is not a git-host not-found error. -/
def errorsNew (text : String) : Error := ⟨text, ErrorCode.other, false⟩

/-- The values the four accessors of `bufmoduleref.ModuleIdentity` return. -/
structure ModuleIdentity where
  remote : String
  owner : String
  repository : String
  identityString : String
deriving DecidableEq, Repr

/-- The one field of `LocalModulePin` that push.go reads. -/
structure LocalModulePin where
  commit : String
deriving DecidableEq, Repr

/-- The `github.CompareCommitsStatus` values push.go switches on; `other`
stands for every further value and carries how `%s` renders it. -/
inductive CompareCommitsStatus where
  | identical
  | behind
  | diverged
  | ahead
  | other (rendered : String)
deriving DecidableEq, Repr

/-- One line written to standard output. -/
inductive Line where
  | notice (message : String)
  | output (name value : String)
deriving DecidableEq, Repr

/-- The text of a line: the format strings of `writeNotice` and `setOutput`. -/
def Line.render : Line → String
  | Line.notice message => "::notice::" ++ message ++ "\n"
  | Line.output name value => "::set-output name=" ++ name ++ "::" ++ value ++ "\n"

/-- A call that goes over the network: four registry calls and the git-host
compare call, each with the arguments push.go passes. -/
inductive Call where
  | getRepositoryCommitByReference (owner repository reference : String)
  | compareCommits (base head : String)
  | push (owner repository branch protoModule : String) (tags tracks : List String)
  | getRepositoryByFullName (fullName : String)
  | createRepositoryTag (repositoryId tagName reference : String)
deriving DecidableEq, Repr

/-- Everything push.go consumes and does not implement. A service constructor
answers `Except.ok ()` or an error; a call answers its value or an error.
`push` answers the pair Go returns, pin and error, either of which may be nil,
because push.go reads the pin on the error path too. -/
structure Collaborators where
  /-- The `%q` verb of `fmt`. -/
  quote : String → String
  /-- The function `bufcli.ReadModuleWithWorkspacesDisabled`, by input locator. -/
  readModule : String → Except Error (String × ModuleIdentity)
  /-- The function `bufmodule.ModuleToProtoModule`. -/
  moduleToProtoModule : String → Except Error String
  /-- The function `bufcli.NewRegistryProvider`. -/
  newRegistryProvider : Except Error Unit
  newRepositoryCommitService : String → Except Error Unit
  /-- The tag names of the commit the reference points at. -/
  getRepositoryCommitByReference : String → String → String → Except Error (List String)
  /-- The function `github.NewClient`, by token and repository. -/
  newClient : String → String → Except Error Unit
  compareCommits : String → String → Except Error CompareCommitsStatus
  newPushService : String → Except Error Unit
  push : String → String → String → String → List String → List String →
    Option LocalModulePin × Option Error
  newRepositoryService : String → Except Error Unit
  /-- The id of the repository of that full name. -/
  getRepositoryByFullName : String → Except Error String
  newRepositoryTagService : String → Except Error Unit
  createRepositoryTag : String → String → String → Except Error Unit

/-- How a run of `push` ended: `nil` returned, an error returned, or a nil
pointer dereferenced. -/
inductive Outcome where
  | success
  | failure (err : Error)
  | nilDereference
deriving DecidableEq, Repr

/-- A finished run of `push`. -/
structure Run where
  outcome : Outcome
  stdout : List Line
  calls : List Call
deriving DecidableEq, Repr

/-! ## bufpushaction.go -/

/-- The function `resolveTrack`. -/
def resolveTrack (track defaultBranch refName : String) : String :=
  if track = defaultBranch ∧ (track = refName ∨ refName = "") then "main" else track

/-- The function `setOutput`. -/
def setOutput (w : List Line) (name value : String) : List Line :=
  w ++ [Line.output name value]

/-- The function `writeNotice`. -/
def writeNotice (w : List Line) (message : String) : List Line :=
  w ++ [Line.notice message]

/-- The function `getRegistryProvider`. -/
def getRegistryProvider (co : Collaborators) : Except Error Unit :=
  match co.newRegistryProvider with
  | Except.error err => Except.error err
  | Except.ok _ => Except.ok ()

/-! ## Go strings -/

/-- The UTF-8 bytes of one character. -/
def utf8Bytes (c : Char) : List Nat :=
  let v := c.toNat
  if v < 128 then [v]
  else if v < 2048 then [192 + v / 64, 128 + v % 64]
  else if v < 65536 then [224 + v / 4096, 128 + v / 64 % 64, 128 + v % 64]
  else [240 + v / 262144, 128 + v / 4096 % 64, 128 + v / 64 % 64, 128 + v % 64]

/-- The bytes of a Go string. -/
def goBytesOf : List Char → List Nat
  | [] => []
  | c :: cs => utf8Bytes c ++ goBytesOf cs

/-- The bytes of a Go string. -/
def goBytes (s : String) : List Nat := goBytesOf s.data

/-- Go's `len` on a string: its number of bytes. -/
def goLen (s : String) : Nat := (goBytes s).length

/-- The function `fromHexChar` of `encoding/hex`. -/
def fromHexChar (b : Nat) : Option Nat :=
  if 48 ≤ b ∧ b ≤ 57 then some (b - 48)
  else if 97 ≤ b ∧ b ≤ 102 then some (b - 97 + 10)
  else if 65 ≤ b ∧ b ≤ 70 then some (b - 65 + 10)
  else none

/-- The function `hex.DecodeString` on the bytes of its argument: the decoded
bytes, or `none` where Go returns an error (an odd length or a byte that is
no hexadecimal digit). -/
def hexDecode : List Nat → Option (List Nat)
  | [] => some []
  | [_] => none
  | p :: q :: rest =>
    match fromHexChar p, fromHexChar q with
    | some a, some b =>
      match hexDecode rest with
      | some out => some ((a * 16 + b) :: out)
      | none => none
    | _, _ => none

/-- The function `hex.DecodeString`. -/
def hexDecodeString (s : String) : Option (List Nat) := hexDecode (goBytes s)

/-- The function `strings.Split` with a one-character separator, on the
characters of the string. -/
def splitChars (sep : Char) : List Char → List (List Char)
  | [] => [[]]
  | c :: cs =>
    if c = sep then [] :: splitChars sep cs
    else
      match splitChars sep cs with
      | [] => [[c]]
      | part :: parts => (c :: part) :: parts

/-- The function `strings.Split(s, "/")`. -/
def stringsSplitSlash (s : String) : List String :=
  (splitChars '/' s.data).map String.mk

/-! ## push.go -/

/-- The loop of `getTags` over `repositoryCommit.Tags`. -/
def keepCommitTags : List String → List String
  | [] => []
  | tagName :: rest =>
    if goLen tagName ≠ 40 then keepCommitTags rest
    else
      match hexDecodeString tagName with
      | none => keepCommitTags rest
      | some _ => tagName :: keepCommitTags rest

/-- The function `getTags`: its result and the calls made so far. -/
def getTags (co : Collaborators) (moduleIdentity : ModuleIdentity) (track : String)
    (calls : List Call) : Except Error (List String) × List Call :=
  match co.newRepositoryCommitService moduleIdentity.remote with
  | Except.error err => (Except.error err, calls)
  | Except.ok _ =>
    let calls1 := calls ++
      [Call.getRepositoryCommitByReference moduleIdentity.owner moduleIdentity.repository track]
    match co.getRepositoryCommitByReference moduleIdentity.owner moduleIdentity.repository
        track with
    | Except.error err => (Except.error err, calls1)
    | Except.ok repositoryCommitTags => (Except.ok (keepCommitTags repositoryCommitTags), calls1)

/-- The function `getGithubClient`. -/
def getGithubClient (co : Collaborators) (env : String → String) : Except Error Unit :=
  let githubToken := env githubTokenInput
  if githubToken = "" then
    Except.error (errorsNew "a github authentication token was not provided")
  else
    let githubRepository := env githubRepositoryKey
    if githubRepository = "" then
      Except.error (errorsNew "a github repository was not provided")
    else
      let repoParts := stringsSplitSlash githubRepository
      if repoParts.length ≠ 2 then
        Except.error
          (errorsNew "a github repository was not provided in the format owner/repo")
      else
        match co.newClient githubToken githubRepository with
        | Except.error err => Except.error err
        | Except.ok _ => Except.ok ()

/-- The function `tagExistingCommit`: the error it returns, if any, and the
calls made so far. -/
def tagExistingCommit (co : Collaborators) (moduleIdentity : ModuleIdentity)
    (tagName reference : String) (calls : List Call) : Option Error × List Call :=
  match co.newRepositoryService moduleIdentity.remote with
  | Except.error err => (some err, calls)
  | Except.ok _ =>
    let fullName := moduleIdentity.owner ++ "/" ++ moduleIdentity.repository
    let calls1 := calls ++ [Call.getRepositoryByFullName fullName]
    match co.getRepositoryByFullName fullName with
    | Except.error err =>
      if err.code = ErrorCode.notFound then
        (some (errorsNew ("a repository named " ++ co.quote moduleIdentity.identityString ++
          " does not exist")), calls1)
      else (some err, calls1)
    | Except.ok repositoryId =>
      match co.newRepositoryTagService moduleIdentity.remote with
      | Except.error err => (some err, calls1)
      | Except.ok _ =>
        let calls2 := calls1 ++ [Call.createRepositoryTag repositoryId tagName reference]
        match co.createRepositoryTag repositoryId tagName reference with
        | Except.error err =>
          if err.code = ErrorCode.notFound then
            (some (errorsNew (moduleIdentity.identityString ++ ":" ++ reference ++
              " does not exist")), calls2)
          else if err.code = ErrorCode.alreadyExists then
            (some (errorsNew (moduleIdentity.identityString ++ ":" ++ tagName ++
              " already exists with different content")), calls2)
          else (some err, calls2)
        | Except.ok _ => (none, calls2)

/-- Lines 146 to 153 of `push`: the two outputs are made from
`localModulePin.Commit`, which dereferences the pin before anything is
written. -/
def pushOutputs (moduleIdentity : ModuleIdentity) (localModulePin : Option LocalModulePin)
    (stdout : List Line) (calls : List Call) : Run :=
  match localModulePin with
  | none => ⟨Outcome.nilDereference, stdout, calls⟩
  | some pin =>
    ⟨Outcome.success,
      setOutput (setOutput stdout commitOutputID pin.commit) commitURLOutputID
        ("https://" ++ moduleIdentity.identityString ++ "/tree/" ++ pin.commit),
      calls⟩

/-- Lines 124 to 154 of `push`: the push call, the fall back to
`tagExistingCommit`, the outputs. -/
def pushModule (co : Collaborators) (moduleIdentity : ModuleIdentity) (protoModule : String)
    (track currentGitCommit : String) (stdout : List Line) (calls : List Call) : Run :=
  match co.newPushService moduleIdentity.remote with
  | Except.error err => ⟨Outcome.failure err, stdout, calls⟩
  | Except.ok _ =>
    let calls1 := calls ++ [Call.push moduleIdentity.owner moduleIdentity.repository ""
      protoModule [currentGitCommit] [track]]
    match co.push moduleIdentity.owner moduleIdentity.repository "" protoModule
        [currentGitCommit] [track] with
    | (localModulePin, some err) =>
      if err.code ≠ ErrorCode.alreadyExists then ⟨Outcome.failure err, stdout, calls1⟩
      else
        match tagExistingCommit co moduleIdentity currentGitCommit track calls1 with
        | (some err2, calls2) => ⟨Outcome.failure err2, stdout, calls2⟩
        | (none, calls2) => pushOutputs moduleIdentity localModulePin stdout calls2
    | (localModulePin, none) => pushOutputs moduleIdentity localModulePin stdout calls1

/-- The text of the notice for a tag that compares as identical. -/
def identicalMessage (track : String) : String :=
  "Skipping because the current git commit is already the head of track " ++ track

/-- The text of the notice for a tag that compares as behind. -/
def behindMessage (track : String) : String :=
  "Skipping because the current git commit is behind the head of track " ++ track

/-- The text of the warning written for a tag that compares as diverged. -/
def divergedMessage (track : String) : String :=
  "The current git commit is diverged from the head of track " ++ track

/-- Lines 92 to 154 of `push`: the loop over the tags, then `pushModule`. -/
def pushTags (co : Collaborators) (moduleIdentity : ModuleIdentity) (protoModule : String)
    (track currentGitCommit : String) :
    List String → List Line → List Call → Run
  | [], stdout, calls =>
    pushModule co moduleIdentity protoModule track currentGitCommit stdout calls
  | tag :: rest, stdout, calls =>
    let calls1 := calls ++ [Call.compareCommits tag currentGitCommit]
    match co.compareCommits tag currentGitCommit with
    | Except.error err =>
      if err.ghNotFound then
        pushTags co moduleIdentity protoModule track currentGitCommit rest stdout calls1
      else ⟨Outcome.failure err, stdout, calls1⟩
    | Except.ok status =>
      match status with
      | CompareCommitsStatus.identical =>
        ⟨Outcome.success, writeNotice stdout (identicalMessage track), calls1⟩
      | CompareCommitsStatus.behind =>
        ⟨Outcome.success, writeNotice stdout (behindMessage track), calls1⟩
      | CompareCommitsStatus.diverged =>
        pushTags co moduleIdentity protoModule track currentGitCommit rest
          (writeNotice stdout (divergedMessage track)) calls1
      | CompareCommitsStatus.ahead =>
        pushTags co moduleIdentity protoModule track currentGitCommit rest stdout calls1
      | CompareCommitsStatus.other rendered =>
        ⟨Outcome.failure (errorsNew ("unexpected status: " ++ rendered)), stdout, calls1⟩

/-- Lines 76 to 154 of `push`, from the effective track on. -/
def pushTrack (co : Collaborators) (env : String → String) (moduleIdentity : ModuleIdentity)
    (protoModule : String) (track : String) : Run :=
  match getRegistryProvider co with
  | Except.error err => ⟨Outcome.failure err, [], []⟩
  | Except.ok _ =>
    match getTags co moduleIdentity track [] with
    | (Except.error err, calls) => ⟨Outcome.failure err, [], calls⟩
    | (Except.ok tags, calls) =>
      match getGithubClient co env with
      | Except.error err => ⟨Outcome.failure err, [], calls⟩
      | Except.ok _ =>
        let currentGitCommit := env githubSHAKey
        if currentGitCommit = "" then
          ⟨Outcome.failure (errorsNew "current git commit not found in environment"), [], calls⟩
        else pushTags co moduleIdentity protoModule track currentGitCommit tags [] calls

/-- The function `push`; `env` is `container.Env`. -/
def push (co : Collaborators) (env : String → String) (eventName : String) : Run :=
  let refType := env githubRefTypeKey
  if refType ≠ githubRefTypeBranch then
    ⟨Outcome.success,
      writeNotice []
        ("Skipping because " ++ co.quote eventName ++ " events are not supported with " ++
          co.quote refType ++ " references"),
      []⟩
  else
    match co.readModule (env inputInput) with
    | Except.error err => ⟨Outcome.failure err, [], []⟩
    | Except.ok (module, moduleIdentity) =>
      match co.moduleToProtoModule module with
      | Except.error err => ⟨Outcome.failure err, [], []⟩
      | Except.ok protoModule =>
        let track := env trackInput
        if track = "" then ⟨Outcome.failure (errorsNew "track not provided"), [], []⟩
        else
          let defaultBranch := env defaultBranchInput
          if defaultBranch = "" then
            ⟨Outcome.failure (errorsNew "default_branch not provided"), [], []⟩
          else
            let refName := env githubRefNameKey
            if defaultBranch ≠ "main" ∧ track = "main" ∧ track = refName then
              ⟨Outcome.failure
                (errorsNew "cannot push to main track from a non-default branch"), [], []⟩
            else
              pushTrack co env moduleIdentity protoModule
                (resolveTrack track defaultBranch refName)

/-! ## The vocabulary of the statements -/

def Call.isFetch : Call → Bool
  | Call.getRepositoryCommitByReference _ _ _ => true
  | _ => false

def Call.isCompare : Call → Bool
  | Call.compareCommits _ _ => true
  | _ => false

def Call.isPush : Call → Bool
  | Call.push _ _ _ _ _ _ => true
  | _ => false

def Call.isLookup : Call → Bool
  | Call.getRepositoryByFullName _ => true
  | _ => false

def Call.isCreateTag : Call → Bool
  | Call.createRepositoryTag _ _ _ => true
  | _ => false

def Line.isOutput : Line → Bool
  | Line.output _ _ => true
  | _ => false

/-- The run `r` continued from a state in which `stdout` was already written
and `calls` already made. -/
def Run.after (stdout : List Line) (calls : List Call) (r : Run) : Run :=
  ⟨r.outcome, stdout ++ r.stdout, calls ++ r.calls⟩

/-- The track `push` works on after line 75. -/
def effectiveTrack (env : String → String) : String :=
  resolveTrack (env trackInput) (env defaultBranchInput) (env githubRefNameKey)

/-- The tag compares as diverged against the commit. -/
def comparesDiverged (co : Collaborators) (currentGitCommit tag : String) : Bool :=
  match co.compareCommits tag currentGitCommit with
  | Except.ok CompareCommitsStatus.diverged => true
  | _ => false

/-- One warning for every tag of the list that compares as diverged. -/
def divergedWarnings (co : Collaborators) (track currentGitCommit : String)
    (tags : List String) : List Line :=
  (tags.filter (comparesDiverged co currentGitCommit)).map
    (fun _ => Line.notice (divergedMessage track))

/-- The compare calls for the tags of a list, in order. -/
def compareCalls (currentGitCommit : String) (tags : List String) : List Call :=
  tags.map (fun tag => Call.compareCommits tag currentGitCommit)

/-- The tag compares as ahead, as diverged, or is not found: the loop goes on
to the next tag. -/
def Passes (co : Collaborators) (currentGitCommit tag : String) : Prop :=
  co.compareCommits tag currentGitCommit = Except.ok CompareCommitsStatus.ahead ∨
  co.compareCommits tag currentGitCommit = Except.ok CompareCommitsStatus.diverged ∨
  ∃ err, co.compareCommits tag currentGitCommit = Except.error err ∧ err.ghNotFound = true

/-- The run passes lines 35 to 91 of `push` and enters the loop over `tags`,
the filtered tags of the effective track, with the module `protoModule` of
identity `moduleIdentity`. -/
def ReachesTagLoop (co : Collaborators) (env : String → String)
    (moduleIdentity : ModuleIdentity) (protoModule : String) (tags : List String) : Prop :=
  env githubRefTypeKey = githubRefTypeBranch ∧
  (∃ module, co.readModule (env inputInput) = Except.ok (module, moduleIdentity) ∧
    co.moduleToProtoModule module = Except.ok protoModule) ∧
  env trackInput ≠ "" ∧
  env defaultBranchInput ≠ "" ∧
  ¬ (env defaultBranchInput ≠ "main" ∧ env trackInput = "main" ∧
    env trackInput = env githubRefNameKey) ∧
  co.newRegistryProvider = Except.ok () ∧
  co.newRepositoryCommitService moduleIdentity.remote = Except.ok () ∧
  (∃ raw, co.getRepositoryCommitByReference moduleIdentity.owner moduleIdentity.repository
      (effectiveTrack env) = Except.ok raw ∧ keepCommitTags raw = tags) ∧
  getGithubClient co env = Except.ok () ∧
  env githubSHAKey ≠ ""

/-- The tag fetch of a run on `moduleIdentity`. -/
def fetchCall (env : String → String) (moduleIdentity : ModuleIdentity) : Call :=
  Call.getRepositoryCommitByReference moduleIdentity.owner moduleIdentity.repository
    (effectiveTrack env)

/-- The push call of a run on `moduleIdentity` and `protoModule`. -/
def pushCall (env : String → String) (moduleIdentity : ModuleIdentity)
    (protoModule : String) : Call :=
  Call.push moduleIdentity.owner moduleIdentity.repository "" protoModule
    [env githubSHAKey] [effectiveTrack env]

/-- The repository lookup of the tag repair of a run on `moduleIdentity`. -/
def lookupCall (moduleIdentity : ModuleIdentity) : Call :=
  Call.getRepositoryByFullName (moduleIdentity.owner ++ "/" ++ moduleIdentity.repository)

/-- The push call of the run answered with an error of code "already exists". -/
def PushAlreadyExists (co : Collaborators) (moduleIdentity : ModuleIdentity)
    (protoModule track currentGitCommit : String) : Prop :=
  ∃ pin err, co.push moduleIdentity.owner moduleIdentity.repository "" protoModule
    [currentGitCommit] [track] = (pin, some err) ∧ err.code = ErrorCode.alreadyExists

/-- The calls of a tag repair: none when the repository service cannot be
made, else the lookup, followed by the tag creation when it is reached. -/
def RepairCalls (moduleIdentity : ModuleIdentity) (track currentGitCommit : String)
    (calls : List Call) : Prop :=
  calls = [] ∨ calls = [lookupCall moduleIdentity] ∨
    ∃ repositoryId, calls =
      [lookupCall moduleIdentity, Call.createRepositoryTag repositoryId currentGitCommit track]

/-- Lines 61 to 74 of `push` let the run through. -/
def PassesGuards (env : String → String) : Prop :=
  env trackInput ≠ "" ∧ env defaultBranchInput ≠ "" ∧
    ¬ (env defaultBranchInput ≠ "main" ∧ env trackInput = "main" ∧
      env trackInput = env githubRefNameKey)

/-- The same collaborators with a registry that answers the tag fetch with the
tag names `tags`. -/
def Collaborators.withTags (co : Collaborators) (tags : List String) : Collaborators :=
  { co with getRepositoryCommitByReference := fun _ _ _ => Except.ok tags }

/-- The two runs end the same way, write the same lines, and make the same
calls once the compare calls are left out. -/
def SameButCompares (r1 r2 : Run) : Prop :=
  r1.outcome = r2.outcome ∧ r1.stdout = r2.stdout ∧
    r1.calls.filter (fun c => !c.isCompare) = r2.calls.filter (fun c => !c.isCompare)

/-- The tag is reported as not found when compared against the commit. -/
def NotFound (co : Collaborators) (currentGitCommit tag : String) : Prop :=
  ∃ err, co.compareCommits tag currentGitCommit = Except.error err ∧ err.ghNotFound = true

/-! ## The wording of the specification -/

/-- A hexadecimal digit: `0` to `9`, `a` to `f`, `A` to `F`. -/
def isHexDigit (c : Char) : Bool :=
  ('0'.toNat ≤ c.toNat ∧ c.toNat ≤ '9'.toNat) ∨ ('a'.toNat ≤ c.toNat ∧ c.toNat ≤ 'f'.toNat) ∨
    ('A'.toNat ≤ c.toNat ∧ c.toNat ≤ 'F'.toNat)

/-- A commit tag as the specification words it: forty characters, all of them
hexadecimal digits. -/
def isCommitTag (tagName : String) : Bool :=
  tagName.length = 40 ∧ tagName.data.all isHexDigit

/-! ## Concrete runs -/

/-- An environment given by its set variables; `container.Env` answers the
empty string for the others. -/
def envOf (pairs : List (String × String)) (key : String) : String :=
  match pairs.lookup key with
  | some value => value
  | none => ""

def sampleIdentity : ModuleIdentity :=
  ⟨"buf.build", "acme", "weather", "buf.build/acme/weather"⟩

def hexF40 : String := "ffffffffffffffffffffffffffffffffffffffff"
def nonHexG40 : String := "gggggggggggggggggggggggggggggggggggggggg"
def tagA : String := "aaaaaaaaaaaaaaaaaaaaaaaaaaaaaaaaaaaaaaaa"
def tagB : String := "bbbbbbbbbbbbbbbbbbbbbbbbbbbbbbbbbbbbbbbb"
def sampleCommit : String := "0123456789abcdef0123456789abcdef01234567"

/-- Collaborators whose constructors all succeed: the registry answers the tag
fetch with `tags`, the git host compares by `cmp`, the push call answers
`pushResult`, and the tag repair succeeds. -/
def sampleCo (tags : List String) (cmp : String → Except Error CompareCommitsStatus)
    (pushResult : Option LocalModulePin × Option Error) : Collaborators where
  quote := fun s => "\"" ++ s ++ "\""
  readModule := fun _ => Except.ok ("module", sampleIdentity)
  moduleToProtoModule := fun m => Except.ok m
  newRegistryProvider := Except.ok ()
  newRepositoryCommitService := fun _ => Except.ok ()
  getRepositoryCommitByReference := fun _ _ _ => Except.ok tags
  newClient := fun _ _ => Except.ok ()
  compareCommits := fun base _ => cmp base
  newPushService := fun _ => Except.ok ()
  push := fun _ _ _ _ _ _ => pushResult
  newRepositoryService := fun _ => Except.ok ()
  getRepositoryByFullName := fun _ => Except.ok "repo-id"
  newRepositoryTagService := fun _ => Except.ok ()
  createRepositoryTag := fun _ _ _ => Except.ok ()

/-- A branch event with the given inputs. -/
def sampleEnvWith (track defaultBranch refName token repository sha : String) :
    String → String :=
  envOf [(githubRefTypeKey, "branch"), (inputInput, "."), (trackInput, track),
    (defaultBranchInput, defaultBranch), (githubRefNameKey, refName),
    (githubTokenInput, token), (githubRepositoryKey, repository), (githubSHAKey, sha)]

/-- A branch event with every input set. -/
def sampleEnv (track defaultBranch refName : String) : String → String :=
  sampleEnvWith track defaultBranch refName "token" "acme/weather" sampleCommit

/-- A git host for which `tagA` is behind and every other comparison fails. -/
def cmpBehindA (base : String) : Except Error CompareCommitsStatus :=
  if base = tagA then Except.ok CompareCommitsStatus.behind
  else Except.error ⟨"compare failed", ErrorCode.other, false⟩

/-- A git host for which every tag is diverged. -/
def cmpDiverged (_ : String) : Except Error CompareCommitsStatus :=
  Except.ok CompareCommitsStatus.diverged

/-- A git host that does not find `tagA` and for which every other tag is
behind. -/
def cmpNotFoundA (base : String) : Except Error CompareCommitsStatus :=
  if base = tagA then Except.error ⟨"reference not found", ErrorCode.other, true⟩
  else Except.ok CompareCommitsStatus.behind

/-- The error of a push call for content the registry already has. -/
def alreadyExistsError : Error := ⟨"already exists", ErrorCode.alreadyExists, false⟩

/-- The error of a module reader that finds no module. -/
def unreadableError : Error := ⟨"no module at the input", ErrorCode.other, false⟩

/-- The error of a provider that yields no push service. -/
def noServiceError : Error := ⟨"no push service", ErrorCode.other, false⟩

/-- The sample collaborators with a module reader that fails. -/
def unreadableCo : Collaborators :=
  { sampleCo [] cmpDiverged (none, none) with readModule := fun _ => Except.error unreadableError }

/-- The sample collaborators with a provider that yields no push service. -/
def noPushServiceCo (tags : List String) : Collaborators :=
  { sampleCo tags cmpDiverged (none, none) with
    newPushService := fun _ => Except.error noServiceError }

/-- The sample collaborators with a git host that does not find `tagA` and a
provider that yields no push service. -/
def notFoundNoPushServiceCo (tags : List String) : Collaborators :=
  { sampleCo tags cmpNotFoundA (none, none) with
    newPushService := fun _ => Except.error noServiceError }

/-! ## Theorems -/


theorem fromHexChar_isSome (b : Nat) :
    (fromHexChar b).isSome = true ↔ (48 ≤ b ∧ b ≤ 57) ∨ (97 ≤ b ∧ b ≤ 102) ∨ (65 ≤ b ∧ b ≤ 70) := by
  unfold fromHexChar
  split_ifs <;> simp <;> omega

theorem isHexDigit_iff (c : Char) :
    isHexDigit c = true ↔
      (48 ≤ c.toNat ∧ c.toNat ≤ 57) ∨ (97 ≤ c.toNat ∧ c.toNat ≤ 102) ∨
        (65 ≤ c.toNat ∧ c.toNat ≤ 70) := by
  have h : ('0'.toNat, '9'.toNat, 'a'.toNat, 'f'.toNat, 'A'.toNat, 'F'.toNat) =
      (48, 57, 97, 102, 65, 70) := by decide
  simp only [Prod.mk.injEq] at h
  obtain ⟨h0, h9, ha, hf, hA, hF⟩ := h
  simp [isHexDigit, h0, h9, ha, hf, hA, hF]

theorem utf8Bytes_hex (c : Char) :
    (∀ b ∈ utf8Bytes c, (fromHexChar b).isSome = true) ↔ isHexDigit c = true := by
  rw [isHexDigit_iff]
  unfold utf8Bytes
  simp only
  split_ifs with h1 h2 h3
  · simp [fromHexChar_isSome]
  · simp [fromHexChar_isSome]; omega
  · simp [fromHexChar_isSome]; omega
  · simp [fromHexChar_isSome]; omega

theorem utf8Bytes_of_hex (c : Char) (h : isHexDigit c = true) : utf8Bytes c = [c.toNat] := by
  rw [isHexDigit_iff] at h
  unfold utf8Bytes
  simp only
  rw [if_pos (by omega)]

theorem goBytesOf_hex (cs : List Char) :
    (∀ b ∈ goBytesOf cs, (fromHexChar b).isSome = true) ↔ ∀ c ∈ cs, isHexDigit c = true := by
  induction cs with
  | nil => simp [goBytesOf]
  | cons c cs ih =>
    simp only [goBytesOf, List.mem_append, List.mem_cons]
    constructor
    · intro h x hx
      rcases hx with rfl | hx
      · exact (utf8Bytes_hex x).1 (fun b hb => h b (Or.inl hb))
      · exact ih.1 (fun b hb => h b (Or.inr hb)) x hx
    · intro h b hb
      rcases hb with hb | hb
      · exact (utf8Bytes_hex c).2 (h c (Or.inl rfl)) b hb
      · exact ih.2 (fun x hx => h x (Or.inr hx)) b hb

theorem goBytesOf_length_of_hex (cs : List Char) (h : ∀ c ∈ cs, isHexDigit c = true) :
    (goBytesOf cs).length = cs.length := by
  induction cs with
  | nil => simp [goBytesOf]
  | cons c cs ih =>
    have hc := utf8Bytes_of_hex c (h c (List.mem_cons_self _ _))
    have hrest := ih (fun x hx => h x (List.mem_cons_of_mem _ hx))
    simp [goBytesOf, hc, hrest]

theorem hexDecode_isSome_aux (n : Nat) :
    ∀ bs : List Nat, bs.length ≤ n →
      ((hexDecode bs).isSome = true ↔
        bs.length % 2 = 0 ∧ ∀ b ∈ bs, (fromHexChar b).isSome = true) := by
  induction n with
  | zero =>
    intro bs hlen
    have : bs = [] := List.length_eq_zero.mp (Nat.le_zero.mp hlen)
    subst this
    simp [hexDecode]
  | succ n ih =>
    intro bs hlen
    match bs, hlen with
    | [], _ => simp [hexDecode]
    | [_], _ => simp [hexDecode]
    | p :: q :: rest, hlen =>
      have hrest : rest.length ≤ n := by simp at hlen; omega
      have ih1 := ih rest hrest
      cases hp : fromHexChar p with
      | none => simp [hexDecode, hp]
      | some a =>
        cases hq : fromHexChar q with
        | none => simp [hexDecode, hp, hq]
        | some b =>
          cases hr : hexDecode rest with
          | none =>
            rw [hr] at ih1
            simp only [hexDecode, hp, hq, hr]
            simp only [Option.isSome_none, Bool.false_eq_true, false_iff] at ih1 ⊢
            intro hcon
            apply ih1
            refine ⟨?_, fun x hx => hcon.2 x (by simp [hx])⟩
            have := hcon.1
            simp at this
            omega
          | some out =>
            rw [hr] at ih1
            simp only [hexDecode, hp, hq, hr]
            simp only [Option.isSome_some, true_iff] at ih1 ⊢
            refine ⟨?_, ?_⟩
            · simp; omega
            · intro x hx
              simp at hx
              rcases hx with rfl | rfl | hx
              · simp [hp]
              · simp [hq]
              · exact ih1.2 x hx

theorem hexDecode_isSome (bs : List Nat) :
    (hexDecode bs).isSome = true ↔
      bs.length % 2 = 0 ∧ ∀ b ∈ bs, (fromHexChar b).isSome = true :=
  hexDecode_isSome_aux bs.length bs (Nat.le_refl _)

/-- A tag passes the two tests of `getTags` exactly when it is forty
hexadecimal digits. -/
theorem commit_tag_test (tagName : String) :
    (goLen tagName = 40 ∧ (hexDecodeString tagName).isSome = true) ↔
      isCommitTag tagName = true := by
  unfold goLen hexDecodeString goBytes isCommitTag
  rw [hexDecode_isSome, goBytesOf_hex]
  simp only [String.length, decide_eq_true_eq, Bool.decide_and, Bool.and_eq_true,
    List.all_eq_true]
  constructor
  · rintro ⟨hlen, -, hall⟩
    rw [goBytesOf_length_of_hex _ hall] at hlen
    exact ⟨hlen, hall⟩
  · rintro ⟨hlen, hall⟩
    rw [goBytesOf_length_of_hex _ hall]
    exact ⟨hlen, by omega, hall⟩

theorem keepCommitTags_eq_filter (tags : List String) :
    keepCommitTags tags = tags.filter isCommitTag := by
  induction tags with
  | nil => rfl
  | cons t rest ih =>
    have key := commit_tag_test t
    unfold keepCommitTags
    by_cases hlen : goLen t = 40
    · cases hd : hexDecodeString t with
      | none =>
        have : isCommitTag t = false := by
          cases hc : isCommitTag t with
          | false => rfl
          | true => have := (key.2 hc).2; rw [hd] at this; simp at this
        simp [hlen, this, ih]
      | some out =>
        have : isCommitTag t = true := key.1 ⟨hlen, by simp [hd]⟩
        simp [hlen, this, ih]
    · have : isCommitTag t = false := by
        cases hc : isCommitTag t with
        | false => rfl
        | true => exact absurd (key.2 hc).1 hlen
      simp [hlen, this, ih]

theorem tagExistingCommit_frame (co : Collaborators) (moduleIdentity : ModuleIdentity)
    (tagName reference : String) (calls : List Call) :
    tagExistingCommit co moduleIdentity tagName reference calls =
      ((tagExistingCommit co moduleIdentity tagName reference []).1,
        calls ++ (tagExistingCommit co moduleIdentity tagName reference []).2) := by
  unfold tagExistingCommit
  dsimp only
  cases co.newRepositoryService moduleIdentity.remote with
  | error err => simp
  | ok u =>
    dsimp only
    cases co.getRepositoryByFullName (moduleIdentity.owner ++ "/" ++ moduleIdentity.repository) with
    | error err => by_cases h : err.code = ErrorCode.notFound <;> simp [h]
    | ok repositoryId =>
      dsimp only
      cases co.newRepositoryTagService moduleIdentity.remote with
      | error err => simp
      | ok u2 =>
        dsimp only
        cases co.createRepositoryTag repositoryId tagName reference with
        | error err =>
          by_cases h : err.code = ErrorCode.notFound
          · simp [h]
          · by_cases h2 : err.code = ErrorCode.alreadyExists <;> simp [h, h2]
        | ok u3 => simp

theorem pushOutputs_frame (moduleIdentity : ModuleIdentity) (pin : Option LocalModulePin)
    (stdout : List Line) (calls more : List Call) :
    pushOutputs moduleIdentity pin stdout (calls ++ more) =
      Run.after stdout calls (pushOutputs moduleIdentity pin [] more) := by
  cases pin <;> simp [pushOutputs, Run.after, setOutput]

theorem pushModule_frame (co : Collaborators) (moduleIdentity : ModuleIdentity)
    (protoModule track currentGitCommit : String) (stdout : List Line) (calls : List Call) :
    pushModule co moduleIdentity protoModule track currentGitCommit stdout calls =
      Run.after stdout calls
        (pushModule co moduleIdentity protoModule track currentGitCommit [] []) := by
  unfold pushModule
  dsimp only
  cases co.newPushService moduleIdentity.remote with
  | error err => simp [Run.after]
  | ok u =>
    simp only [List.nil_append]
    rcases hp : co.push moduleIdentity.owner moduleIdentity.repository "" protoModule
      [currentGitCommit] [track] with ⟨pin, perr⟩
    cases perr with
    | none =>
      simp only
      exact pushOutputs_frame moduleIdentity pin stdout calls _
    | some err =>
      simp only
      by_cases hc : err.code = ErrorCode.alreadyExists
      · simp only [hc, ne_eq, not_true_eq_false, if_false]
        rw [tagExistingCommit_frame co moduleIdentity currentGitCommit track (calls ++ _),
          tagExistingCommit_frame co moduleIdentity currentGitCommit track [_]]
        rcases (tagExistingCommit co moduleIdentity currentGitCommit track []) with ⟨e2, c2⟩
        cases e2 with
        | some e => simp [Run.after]
        | none =>
          simp only [List.append_assoc]
          exact pushOutputs_frame moduleIdentity pin stdout calls _
      · simp [hc, Run.after]

theorem Run.after_after (s1 s2 : List Line) (c1 c2 : List Call) (r : Run) :
    Run.after s1 c1 (Run.after s2 c2 r) = Run.after (s1 ++ s2) (c1 ++ c2) r := by
  simp [Run.after]

theorem pushTags_frame (co : Collaborators) (moduleIdentity : ModuleIdentity)
    (protoModule track currentGitCommit : String) (tags : List String) :
    ∀ (stdout : List Line) (calls : List Call),
      pushTags co moduleIdentity protoModule track currentGitCommit tags stdout calls =
        Run.after stdout calls
          (pushTags co moduleIdentity protoModule track currentGitCommit tags [] []) := by
  induction tags with
  | nil =>
    intro stdout calls
    simp only [pushTags]
    exact pushModule_frame co moduleIdentity protoModule track currentGitCommit stdout calls
  | cons tag rest ih =>
    intro stdout calls
    simp only [pushTags, List.nil_append]
    cases co.compareCommits tag currentGitCommit with
    | error err =>
      by_cases h : err.ghNotFound = true
      · simp only [h, if_true]
        rw [ih stdout, ih [] [_], Run.after_after]
        simp
      · simp [h, Run.after]
    | ok status =>
      cases status with
      | identical => simp [Run.after, writeNotice]
      | behind => simp [Run.after, writeNotice]
      | diverged =>
        simp only
        rw [ih (writeNotice stdout _), ih (writeNotice [] _) [_], Run.after_after]
        simp [writeNotice]
      | ahead =>
        simp only
        rw [ih stdout, ih [] [_], Run.after_after]
        simp
      | other rendered => simp [Run.after]

theorem pushTags_passing (co : Collaborators) (moduleIdentity : ModuleIdentity)
    (protoModule track currentGitCommit : String) (rest : List String) :
    ∀ pre : List String, (∀ x ∈ pre, Passes co currentGitCommit x) →
      pushTags co moduleIdentity protoModule track currentGitCommit (pre ++ rest) [] [] =
        Run.after (divergedWarnings co track currentGitCommit pre)
          (compareCalls currentGitCommit pre)
          (pushTags co moduleIdentity protoModule track currentGitCommit rest [] []) := by
  intro pre
  induction pre with
  | nil => intro _; simp [divergedWarnings, compareCalls, Run.after]
  | cons tag more ih =>
    intro hall
    have htag := hall tag (List.mem_cons_self _ _)
    have hmore := ih (fun x hx => hall x (List.mem_cons_of_mem _ hx))
    simp only [List.cons_append, pushTags, List.nil_append, List.append_eq]
    rcases htag with h | h | ⟨err, h, hnf⟩
    · have hd : comparesDiverged co currentGitCommit tag = false := by
        simp [comparesDiverged, h]
      rw [h]
      simp only [divergedWarnings, List.filter_cons, hd]
      rw [pushTags_frame, hmore, Run.after_after]
      simp [compareCalls, divergedWarnings]
    · have hd : comparesDiverged co currentGitCommit tag = true := by
        simp [comparesDiverged, h]
      rw [h]
      simp only [divergedWarnings, List.filter_cons, hd]
      rw [pushTags_frame, hmore, Run.after_after]
      simp [compareCalls, writeNotice, divergedWarnings]
    · have hd : comparesDiverged co currentGitCommit tag = false := by
        simp [comparesDiverged, h]
      rw [h]
      simp only [divergedWarnings, List.filter_cons, hd, hnf, if_true]
      rw [pushTags_frame, hmore, Run.after_after]
      simp [compareCalls, divergedWarnings]

theorem push_of_reaches (co : Collaborators) (env : String → String) (eventName : String)
    (moduleIdentity : ModuleIdentity) (protoModule : String) (tags : List String)
    (hreach : ReachesTagLoop co env moduleIdentity protoModule tags) :
    push co env eventName =
      Run.after [] [fetchCall env moduleIdentity]
        (pushTags co moduleIdentity protoModule (effectiveTrack env) (env githubSHAKey)
          tags [] []) := by
  obtain ⟨href, ⟨module, hread, hproto⟩, htrack, hdef, hguard, hprov, hsvc,
    ⟨raw, hfetch, hkeep⟩, hgh, hsha⟩ := hreach
  unfold effectiveTrack at hfetch
  unfold push
  simp only [href, ne_eq, not_true_eq_false, if_false, hread, hproto, htrack, hdef, hguard]
  unfold pushTrack getRegistryProvider getTags
  simp only [hprov, hsvc, hfetch, hgh, hsha, if_false, List.nil_append, hkeep]
  rw [pushTags_frame]
  rfl

theorem tagExistingCommit_calls (co : Collaborators) (moduleIdentity : ModuleIdentity)
    (tagName reference : String) :
    RepairCalls moduleIdentity reference tagName
      (tagExistingCommit co moduleIdentity tagName reference []).2 := by
  unfold tagExistingCommit RepairCalls lookupCall
  dsimp only
  cases co.newRepositoryService moduleIdentity.remote with
  | error err => simp
  | ok u =>
    dsimp only
    cases co.getRepositoryByFullName (moduleIdentity.owner ++ "/" ++ moduleIdentity.repository) with
    | error err => by_cases h : err.code = ErrorCode.notFound <;> simp [h]
    | ok repositoryId =>
      dsimp only
      cases co.newRepositoryTagService moduleIdentity.remote with
      | error err => simp
      | ok u2 =>
        dsimp only
        cases co.createRepositoryTag repositoryId tagName reference with
        | error err =>
          by_cases h : err.code = ErrorCode.notFound
          · simp [h]
          · by_cases h2 : err.code = ErrorCode.alreadyExists <;> simp [h, h2]
        | ok u3 => simp

theorem pushOutputs_stdout (moduleIdentity : ModuleIdentity) (pin : Option LocalModulePin)
    (calls : List Call) :
    (pushOutputs moduleIdentity pin [] calls).calls = calls ∧
      ∀ l ∈ (pushOutputs moduleIdentity pin [] calls).stdout, l.isOutput = true := by
  cases pin <;> simp [pushOutputs, setOutput, Line.isOutput]

theorem pushModule_no_service (co : Collaborators) (moduleIdentity : ModuleIdentity)
    (protoModule track currentGitCommit : String) (err : Error)
    (hsvc : co.newPushService moduleIdentity.remote = Except.error err) :
    pushModule co moduleIdentity protoModule track currentGitCommit [] [] =
      ⟨Outcome.failure err, [], []⟩ := by
  unfold pushModule
  simp only [hsvc]

theorem pushModule_stdout (co : Collaborators) (moduleIdentity : ModuleIdentity)
    (protoModule track currentGitCommit : String) :
    ∀ l ∈ (pushModule co moduleIdentity protoModule track currentGitCommit [] []).stdout,
      l.isOutput = true := by
  unfold pushModule
  dsimp only
  cases co.newPushService moduleIdentity.remote with
  | error err => simp
  | ok u =>
    dsimp only
    rcases co.push moduleIdentity.owner moduleIdentity.repository "" protoModule
      [currentGitCommit] [track] with ⟨pin, perr⟩
    cases perr with
    | none => exact (pushOutputs_stdout moduleIdentity pin _).2
    | some err =>
      dsimp only
      by_cases hc : err.code = ErrorCode.alreadyExists
      · simp only [hc, ne_eq, not_true_eq_false, if_false]
        rcases tagExistingCommit co moduleIdentity currentGitCommit track
          ([] ++ [Call.push moduleIdentity.owner moduleIdentity.repository "" protoModule
            [currentGitCommit] [track]]) with ⟨e2, c2⟩
        cases e2 with
        | some e => simp
        | none => exact (pushOutputs_stdout moduleIdentity pin _).2
      · simp [hc]

theorem pushModule_calls (co : Collaborators) (moduleIdentity : ModuleIdentity)
    (protoModule track currentGitCommit : String)
    (hsvc : co.newPushService moduleIdentity.remote = Except.ok ()) :
    ∃ repair, (pushModule co moduleIdentity protoModule track currentGitCommit [] []).calls =
        Call.push moduleIdentity.owner moduleIdentity.repository "" protoModule
          [currentGitCommit] [track] :: repair ∧
      RepairCalls moduleIdentity track currentGitCommit repair ∧
      (repair ≠ [] → PushAlreadyExists co moduleIdentity protoModule track currentGitCommit) := by
  unfold pushModule PushAlreadyExists
  simp only [hsvc, List.nil_append]
  rcases hp : co.push moduleIdentity.owner moduleIdentity.repository "" protoModule
    [currentGitCommit] [track] with ⟨pin, perr⟩
  cases perr with
  | none =>
    refine ⟨[], ?_, Or.inl rfl, fun h => absurd rfl h⟩
    exact (pushOutputs_stdout moduleIdentity pin _).1
  | some err =>
    dsimp only
    by_cases hc : err.code = ErrorCode.alreadyExists
    · simp only [hc, ne_eq, not_true_eq_false, if_false]
      rw [tagExistingCommit_frame]
      have hrep := tagExistingCommit_calls co moduleIdentity currentGitCommit track
      generalize tagExistingCommit co moduleIdentity currentGitCommit track [] = te at hrep ⊢
      rcases te with ⟨e2, c2⟩
      refine ⟨c2, ?_, hrep, fun _ => ⟨pin, err, rfl, hc⟩⟩
      cases e2 with
      | some e => simp
      | none =>
        dsimp only
        rw [(pushOutputs_stdout moduleIdentity pin _).1]
        simp
    · refine ⟨[], ?_, Or.inl rfl, fun h => absurd rfl h⟩
      simp [hc]

/-- C1: `resolveTrack` returns "main" when the track equals the default branch
and the ref name is the track or empty, and the track unchanged otherwise; the
three examples of the specification evaluate as it says. -/
theorem resolveTrack_main_or_unchanged (track defaultBranch refName : String) :
    ((track = defaultBranch ∧ (track = refName ∨ refName = "")) →
      resolveTrack track defaultBranch refName = "main") ∧
    (¬ (track = defaultBranch ∧ (track = refName ∨ refName = "")) →
      resolveTrack track defaultBranch refName = track) ∧
    resolveTrack "master" "master" "master" = "main" ∧
    resolveTrack "master" "master" "" = "main" ∧
    resolveTrack "dev" "master" "dev" = "dev" := by
  refine ⟨fun h => ?_, fun h => ?_, by decide, by decide, by decide⟩
  · unfold resolveTrack; rw [if_pos h]
  · unfold resolveTrack; rw [if_neg h]

/-- C2: the list `getTags` returns is exactly the tag names attached to the
commit of the track that are forty characters long and all hexadecimal digits,
in their order and with their multiplicity: it returns that list whenever the
commit is fetched, every list it returns is that list, and an error it returns
is the error of the service constructor or of the fetch, never caused by a
tag. -/
theorem getTags_keeps_exactly_commit_tags (co : Collaborators) (moduleIdentity : ModuleIdentity)
    (track : String) (calls : List Call) :
    (∀ raw, co.newRepositoryCommitService moduleIdentity.remote = Except.ok () →
      co.getRepositoryCommitByReference moduleIdentity.owner moduleIdentity.repository
        track = Except.ok raw →
      (getTags co moduleIdentity track calls).1 = Except.ok (raw.filter isCommitTag)) ∧
    (∀ tags, (getTags co moduleIdentity track calls).1 = Except.ok tags →
      ∃ raw, co.getRepositoryCommitByReference moduleIdentity.owner moduleIdentity.repository
        track = Except.ok raw ∧ tags = raw.filter isCommitTag) ∧
    (∀ err, (getTags co moduleIdentity track calls).1 = Except.error err →
      co.newRepositoryCommitService moduleIdentity.remote = Except.error err ∨
      co.getRepositoryCommitByReference moduleIdentity.owner moduleIdentity.repository
        track = Except.error err) := by
  unfold getTags
  dsimp only
  cases co.newRepositoryCommitService moduleIdentity.remote with
  | error e =>
    refine ⟨?_, ?_, ?_⟩
    · intro raw h; cases h
    · intro tags h; cases h
    · intro err h
      cases h
      exact Or.inl rfl
  | ok u =>
    dsimp only
    cases co.getRepositoryCommitByReference moduleIdentity.owner moduleIdentity.repository
      track with
    | error e =>
      refine ⟨?_, ?_, ?_⟩
      · intro raw _ h; cases h
      · intro tags h; cases h
      · intro err h
        cases h
        exact Or.inr rfl
    | ok fetched =>
      refine ⟨?_, ?_, ?_⟩
      · intro raw _ h
        cases h
        exact congrArg Except.ok (keepCommitTags_eq_filter fetched)
      · intro tags h
        cases h
        exact ⟨fetched, rfl, keepCommitTags_eq_filter fetched⟩
      · intro err h; cases h

/-- The example of the specification for C2: of the tags "abc123", forty "f"
and forty "g", only the forty "f" are returned. -/
theorem getTags_keeps_exactly_commit_tags_witness :
    (getTags (sampleCo ["abc123", hexF40, nonHexG40] cmpBehindA (none, none)) sampleIdentity
      "main" []).1 = Except.ok [hexF40] :=
  (getTags_keeps_exactly_commit_tags
    (sampleCo ["abc123", hexF40, nonHexG40] cmpBehindA (none, none)) sampleIdentity "main"
    []).1 ["abc123", hexF40, nonHexG40] rfl rfl

/-- C4: when the run reaches the loop over the filtered tags, some tag compares
as identical or behind, and every tag before it compares as ahead, diverged or
not found, then `push` succeeds, its output is the warnings of the earlier
diverged tags followed by the skip notice, its calls are the tag fetch and the
compare calls up to that tag and no more, there is no push call and no tag
repair call, and no output is set. -/
theorem push_short_circuits (co : Collaborators) (env : String → String) (eventName : String)
    (moduleIdentity : ModuleIdentity) (protoModule : String)
    (before : List String) (tag : String) (later : List String)
    (hreach : ReachesTagLoop co env moduleIdentity protoModule (before ++ tag :: later))
    (hbefore : ∀ x ∈ before, Passes co (env githubSHAKey) x)
    (htag : co.compareCommits tag (env githubSHAKey) =
        Except.ok CompareCommitsStatus.identical ∨
      co.compareCommits tag (env githubSHAKey) = Except.ok CompareCommitsStatus.behind) :
    (push co env eventName).outcome = Outcome.success ∧
    (co.compareCommits tag (env githubSHAKey) = Except.ok CompareCommitsStatus.identical →
      (push co env eventName).stdout =
        divergedWarnings co (effectiveTrack env) (env githubSHAKey) before ++
          [Line.notice (identicalMessage (effectiveTrack env))]) ∧
    (co.compareCommits tag (env githubSHAKey) = Except.ok CompareCommitsStatus.behind →
      (push co env eventName).stdout =
        divergedWarnings co (effectiveTrack env) (env githubSHAKey) before ++
          [Line.notice (behindMessage (effectiveTrack env))]) ∧
    (push co env eventName).calls =
      fetchCall env moduleIdentity :: compareCalls (env githubSHAKey) (before ++ [tag]) ∧
    (∀ c ∈ (push co env eventName).calls,
      c.isPush = false ∧ c.isLookup = false ∧ c.isCreateTag = false) ∧
    (∀ l ∈ (push co env eventName).stdout, l.isOutput = false) := by
  have hwarn : ∀ l ∈ divergedWarnings co (effectiveTrack env) (env githubSHAKey) before,
      l.isOutput = false := by
    intro l hl
    obtain ⟨x, -, rfl⟩ := List.mem_map.mp hl
    rfl
  have hcalls : ∀ c ∈ fetchCall env moduleIdentity ::
      compareCalls (env githubSHAKey) (before ++ [tag]),
      c.isPush = false ∧ c.isLookup = false ∧ c.isCreateTag = false := by
    intro c hc
    rcases List.mem_cons.mp hc with rfl | hc
    · exact ⟨rfl, rfl, rfl⟩
    · obtain ⟨x, -, rfl⟩ := List.mem_map.mp hc
      exact ⟨rfl, rfl, rfl⟩
  have hrun : ∀ message,
      (co.compareCommits tag (env githubSHAKey) = Except.ok CompareCommitsStatus.identical →
        message = identicalMessage (effectiveTrack env)) →
      (co.compareCommits tag (env githubSHAKey) = Except.ok CompareCommitsStatus.behind →
        message = behindMessage (effectiveTrack env)) →
      push co env eventName =
        ⟨Outcome.success,
          divergedWarnings co (effectiveTrack env) (env githubSHAKey) before ++
            [Line.notice message],
          fetchCall env moduleIdentity :: compareCalls (env githubSHAKey) (before ++ [tag])⟩ := by
    intro message hid hbe
    rw [push_of_reaches co env eventName moduleIdentity protoModule _ hreach,
      pushTags_passing co moduleIdentity protoModule _ _ (tag :: later) before hbefore]
    rcases htag with h | h
    · simp [pushTags, h, Run.after, writeNotice, compareCalls, hid h]
    · simp [pushTags, h, Run.after, writeNotice, compareCalls, hbe h]
  have hout : ∀ message, ∀ l ∈ divergedWarnings co (effectiveTrack env) (env githubSHAKey)
      before ++ [Line.notice message], l.isOutput = false := by
    intro message l hl
    rcases List.mem_append.mp hl with hl | hl
    · exact hwarn l hl
    · rw [List.mem_singleton.mp hl]; rfl
  rcases htag with h | h
  · have hno : co.compareCommits tag (env githubSHAKey) ≠
        Except.ok CompareCommitsStatus.behind := by rw [h]; intro h2; cases h2
    rw [hrun (identicalMessage (effectiveTrack env)) (fun _ => rfl) (fun h2 => absurd h2 hno)]
    exact ⟨rfl, fun _ => rfl, fun h2 => absurd h2 hno, rfl, hcalls, hout _⟩
  · have hno : co.compareCommits tag (env githubSHAKey) ≠
        Except.ok CompareCommitsStatus.identical := by rw [h]; intro h2; cases h2
    rw [hrun (behindMessage (effectiveTrack env)) (fun h2 => absurd h2 hno) (fun _ => rfl)]
    exact ⟨rfl, fun h2 => absurd h2 hno, fun _ => rfl, rfl, hcalls, hout _⟩

/-- The example of the specification for C4: with the tags A and B, A comparing
as behind, B is never compared and nothing is pushed. -/
theorem push_short_circuits_witness :
    ReachesTagLoop (sampleCo [tagA, tagB] cmpBehindA (none, none))
      (sampleEnv "dev" "master" "dev") sampleIdentity "module" ([] ++ tagA :: [tagB]) ∧
    (sampleCo [tagA, tagB] cmpBehindA (none, none)).compareCommits tagA
      (sampleEnv "dev" "master" "dev" githubSHAKey) = Except.ok CompareCommitsStatus.behind ∧
    (push (sampleCo [tagA, tagB] cmpBehindA (none, none)) (sampleEnv "dev" "master" "dev")
      "push").calls =
      [Call.getRepositoryCommitByReference "acme" "weather" "dev",
        Call.compareCommits tagA sampleCommit] :=
  have hreach : ReachesTagLoop (sampleCo [tagA, tagB] cmpBehindA (none, none))
      (sampleEnv "dev" "master" "dev") sampleIdentity "module" ([] ++ tagA :: [tagB]) :=
    ⟨by decide, ⟨"module", rfl, rfl⟩, by decide, by decide, by decide, rfl, rfl,
      ⟨[tagA, tagB], rfl, by decide⟩, rfl, by decide⟩
  ⟨hreach, rfl,
    (push_short_circuits (sampleCo [tagA, tagB] cmpBehindA (none, none))
      (sampleEnv "dev" "master" "dev") "push" sampleIdentity "module" [] tagA [tagB]
      hreach (fun x hx => by cases hx) (Or.inr rfl)).2.2.2.1⟩

theorem pushTags_shape (co : Collaborators) (moduleIdentity : ModuleIdentity)
    (protoModule track currentGitCommit : String) (tags : List String) :
    ∃ cmps : List Call, (∀ c ∈ cmps, c.isCompare = true) ∧
      ((pushTags co moduleIdentity protoModule track currentGitCommit tags [] []).calls = cmps ∨
        (pushTags co moduleIdentity protoModule track currentGitCommit tags [] []).calls =
          cmps ++
            (pushModule co moduleIdentity protoModule track currentGitCommit [] []).calls) := by
  induction tags with
  | nil => exact ⟨[], by simp, Or.inr (by simp [pushTags])⟩
  | cons tag rest ih =>
    obtain ⟨cmps, hcmps, hrest⟩ := ih
    have hcons : ∀ c ∈ Call.compareCommits tag currentGitCommit :: cmps,
        c.isCompare = true := by
      intro c hc
      rcases List.mem_cons.mp hc with rfl | hc
      · rfl
      · exact hcmps c hc
    have hgo : ∀ stdout,
        (pushTags co moduleIdentity protoModule track currentGitCommit rest stdout
            [Call.compareCommits tag currentGitCommit]).calls =
          Call.compareCommits tag currentGitCommit :: cmps ∨
        (pushTags co moduleIdentity protoModule track currentGitCommit rest stdout
            [Call.compareCommits tag currentGitCommit]).calls =
          (Call.compareCommits tag currentGitCommit :: cmps) ++
            (pushModule co moduleIdentity protoModule track currentGitCommit [] []).calls := by
      intro stdout
      rw [pushTags_frame]
      rcases hrest with h | h
      · left; simp [Run.after, h]
      · right; simp [Run.after, h]
    have hstop : ∀ (outcome : Outcome) (stdout : List Line),
        (Run.mk outcome stdout [Call.compareCommits tag currentGitCommit]).calls =
          [Call.compareCommits tag currentGitCommit] := fun _ _ => rfl
    have hone : ∀ c ∈ [Call.compareCommits tag currentGitCommit], c.isCompare = true := by
      intro c hc
      rw [List.mem_singleton.mp hc]
      rfl
    simp only [pushTags, List.nil_append]
    cases co.compareCommits tag currentGitCommit with
    | error err =>
      by_cases h : err.ghNotFound = true
      · simp only [h, if_true]
        exact ⟨_, hcons, hgo _⟩
      · simp only [h, if_false]
        exact ⟨_, hone, Or.inl rfl⟩
    | ok status =>
      cases status with
      | identical => exact ⟨_, hone, Or.inl rfl⟩
      | behind => exact ⟨_, hone, Or.inl rfl⟩
      | diverged => exact ⟨_, hcons, hgo _⟩
      | ahead => exact ⟨_, hcons, hgo _⟩
      | other rendered => exact ⟨_, hone, Or.inl rfl⟩

theorem pushTrack_shape (co : Collaborators) (env : String → String)
    (moduleIdentity : ModuleIdentity) (protoModule track : String) :
    ∃ head : List Call, (∀ c ∈ head, c.isFetch = true ∨ c.isCompare = true) ∧
      ((pushTrack co env moduleIdentity protoModule track).calls = head ∨
        (pushTrack co env moduleIdentity protoModule track).calls =
          head ++
            (pushModule co moduleIdentity protoModule track (env githubSHAKey) [] []).calls) := by
  have hfetch : ∀ c ∈ [Call.getRepositoryCommitByReference moduleIdentity.owner
      moduleIdentity.repository track], c.isFetch = true ∨ c.isCompare = true := by
    intro c hc
    rw [List.mem_singleton.mp hc]
    exact Or.inl rfl
  unfold pushTrack getRegistryProvider getTags
  cases co.newRegistryProvider with
  | error err => exact ⟨[], by simp, Or.inl rfl⟩
  | ok u =>
    dsimp only
    cases co.newRepositoryCommitService moduleIdentity.remote with
    | error err => exact ⟨[], by simp, Or.inl rfl⟩
    | ok u2 =>
      dsimp only
      cases co.getRepositoryCommitByReference moduleIdentity.owner moduleIdentity.repository
        track with
      | error err => exact ⟨_, hfetch, Or.inl rfl⟩
      | ok raw =>
        dsimp only
        cases getGithubClient co env with
        | error err => exact ⟨_, hfetch, Or.inl rfl⟩
        | ok u3 =>
          dsimp only
          by_cases hsha : env githubSHAKey = ""
          · simp only [hsha, if_true]
            exact ⟨_, hfetch, Or.inl rfl⟩
          · simp only [hsha, if_false]
            obtain ⟨cmps, hcmps, hrest⟩ := pushTags_shape co moduleIdentity protoModule track
              (env githubSHAKey) (keepCommitTags raw)
            rw [pushTags_frame]
            refine ⟨[Call.getRepositoryCommitByReference moduleIdentity.owner
              moduleIdentity.repository track] ++ cmps, ?_, ?_⟩
            · intro c hc
              rcases List.mem_append.mp hc with hc | hc
              · exact hfetch c hc
              · exact Or.inr (hcmps c hc)
            · rcases hrest with h | h
              · left; simp [Run.after, h]
              · right; simp [Run.after, h]

/-- The calls of a run of `push`: the tag fetch and compare calls first, then
nothing more or the push call and what the tag repair adds to it. -/
theorem push_calls_shape (co : Collaborators) (env : String → String) (eventName : String) :
    ∃ head tail : List Call, (push co env eventName).calls = head ++ tail ∧
      (∀ c ∈ head, c.isFetch = true ∨ c.isCompare = true) ∧
      (tail = [] ∨
        (PassesGuards env ∧ ∃ moduleIdentity protoModule repair,
          tail = pushCall env moduleIdentity protoModule :: repair ∧
          RepairCalls moduleIdentity (effectiveTrack env) (env githubSHAKey) repair ∧
          (repair ≠ [] →
            PushAlreadyExists co moduleIdentity protoModule (effectiveTrack env)
              (env githubSHAKey)))) := by
  have hnone : ∀ r : Run, r.calls = [] →
      ∃ head tail : List Call, r.calls = head ++ tail ∧
      (∀ c ∈ head, c.isFetch = true ∨ c.isCompare = true) ∧
      (tail = [] ∨
        (PassesGuards env ∧ ∃ moduleIdentity protoModule repair,
          tail = pushCall env moduleIdentity protoModule :: repair ∧
          RepairCalls moduleIdentity (effectiveTrack env) (env githubSHAKey) repair ∧
          (repair ≠ [] →
            PushAlreadyExists co moduleIdentity protoModule (effectiveTrack env)
              (env githubSHAKey)))) := by
    intro r hr
    exact ⟨[], [], by simp [hr], by simp, Or.inl rfl⟩
  unfold push
  dsimp only
  by_cases href : env githubRefTypeKey = githubRefTypeBranch
  swap
  · rw [if_pos href]
    exact hnone _ rfl
  rw [if_neg (not_not.mpr href)]
  cases co.readModule (env inputInput) with
  | error err => exact hnone ⟨Outcome.failure err, [], []⟩ rfl
  | ok loaded =>
    obtain ⟨module, moduleIdentity⟩ := loaded
    dsimp only
    cases co.moduleToProtoModule module with
    | error err => exact hnone ⟨Outcome.failure err, [], []⟩ rfl
    | ok protoModule =>
      dsimp only
      by_cases htrack : env trackInput = ""
      · rw [if_pos htrack]
        exact hnone _ rfl
      rw [if_neg htrack]
      by_cases hdef : env defaultBranchInput = ""
      · rw [if_pos hdef]
        exact hnone _ rfl
      rw [if_neg hdef]
      by_cases hguard : env defaultBranchInput ≠ "main" ∧ env trackInput = "main" ∧
          env trackInput = env githubRefNameKey
      · rw [if_pos hguard]
        exact hnone _ rfl
      rw [if_neg hguard]
      obtain ⟨head, hhead, hcalls⟩ := pushTrack_shape co env moduleIdentity protoModule
        (resolveTrack (env trackInput) (env defaultBranchInput) (env githubRefNameKey))
      rcases hcalls with h | h
      · exact ⟨head, [], by simp [h], hhead, Or.inl rfl⟩
      · cases hsvc : co.newPushService moduleIdentity.remote with
        | error err =>
          rw [pushModule_no_service co moduleIdentity protoModule _ _ err hsvc] at h
          exact ⟨head, [], by simp [h], hhead, Or.inl rfl⟩
        | ok u =>
          obtain ⟨repair, hrep, hshape, hae⟩ := pushModule_calls co moduleIdentity protoModule
            (resolveTrack (env trackInput) (env defaultBranchInput) (env githubRefNameKey))
            (env githubSHAKey) hsvc
          rw [hrep] at h
          exact ⟨head, _, h, hhead, Or.inr ⟨⟨htrack, hdef, hguard⟩, moduleIdentity,
            protoModule, repair, rfl, hshape, hae⟩⟩

/-- C3, the code at the failing input: a first run whose push call succeeds with
commit "c" writes commit = c and commit_url = https://buf.build/acme/weather/tree/c;
a second run with the same inputs whose push call answers nil and the error
"already exists" and whose tag repair succeeds dereferences the nil pin and
writes no output; and had the failing call returned a pin, the outputs would be
made from that pin, whatever commit it names. -/
theorem push_already_exists_reads_failed_pin :
    push (sampleCo [] cmpDiverged (some ⟨"c"⟩, none)) (sampleEnv "dev" "master" "dev") "push" =
      ⟨Outcome.success,
        [Line.output "commit" "c",
          Line.output "commit_url" "https://buf.build/acme/weather/tree/c"],
        [Call.getRepositoryCommitByReference "acme" "weather" "dev",
          Call.push "acme" "weather" "" "module" [sampleCommit] ["dev"]]⟩ ∧
    push (sampleCo [] cmpDiverged (none, some alreadyExistsError))
        (sampleEnv "dev" "master" "dev") "push" =
      ⟨Outcome.nilDereference, [],
        [Call.getRepositoryCommitByReference "acme" "weather" "dev",
          Call.push "acme" "weather" "" "module" [sampleCommit] ["dev"],
          Call.getRepositoryByFullName "acme/weather",
          Call.createRepositoryTag "repo-id" sampleCommit "dev"]⟩ ∧
    ∀ pin : LocalModulePin,
      (push (sampleCo [] cmpDiverged (some pin, some alreadyExistsError))
        (sampleEnv "dev" "master" "dev") "push").stdout =
        [Line.output "commit" pin.commit,
          Line.output "commit_url" ("https://buf.build/acme/weather/tree/" ++ pin.commit)] := by
  refine ⟨by decide, by decide, fun pin => ?_⟩
  rfl

/-- C5, the claim as stated fails: with a branch ref type, the default branch
"master", the declared track "main" and the ref name "main", a run whose module
cannot be read fails with the reader's error, not with the cross-branch
error. -/
theorem cross_branch_guard_follows_module_read :
    sampleEnv "main" "master" "main" githubRefTypeKey = githubRefTypeBranch ∧
    sampleEnv "main" "master" "main" defaultBranchInput = "master" ∧
    sampleEnv "main" "master" "main" trackInput = "main" ∧
    sampleEnv "main" "master" "main" githubRefNameKey = "main" ∧
    push unreadableCo (sampleEnv "main" "master" "main") "push" =
      ⟨Outcome.failure unreadableError, [], []⟩ ∧
    unreadableError ≠ errorsNew "cannot push to main track from a non-default branch" := by
  decide

/-- C5 as amended: for a branch ref type, a non-empty default branch other than
"main", the declared track "main" and the ref name "main", `push` makes no
registry call and no git-host call and writes nothing, whatever the
collaborators answer, and it fails: with the error of the module reader or of
the conversion when one of them fails, and with "cannot push to main track
from a non-default branch" otherwise. -/
theorem cross_branch_guard (co : Collaborators) (env : String → String) (eventName : String)
    (href : env githubRefTypeKey = githubRefTypeBranch)
    (hdef : env defaultBranchInput ≠ "")
    (hnotmain : env defaultBranchInput ≠ "main")
    (htrack : env trackInput = "main")
    (hrefname : env githubRefNameKey = "main") :
    (push co env eventName).calls = [] ∧
    (push co env eventName).stdout = [] ∧
    (∀ err, co.readModule (env inputInput) = Except.error err →
      (push co env eventName).outcome = Outcome.failure err) ∧
    (∀ module moduleIdentity err,
      co.readModule (env inputInput) = Except.ok (module, moduleIdentity) →
      co.moduleToProtoModule module = Except.error err →
      (push co env eventName).outcome = Outcome.failure err) ∧
    (∀ module moduleIdentity protoModule,
      co.readModule (env inputInput) = Except.ok (module, moduleIdentity) →
      co.moduleToProtoModule module = Except.ok protoModule →
      (push co env eventName).outcome =
        Outcome.failure (errorsNew "cannot push to main track from a non-default branch")) := by
  have hguard : env defaultBranchInput ≠ "main" ∧ env trackInput = "main" ∧
      env trackInput = env githubRefNameKey := ⟨hnotmain, htrack, by rw [htrack, hrefname]⟩
  have htrack2 : env trackInput ≠ "" := by rw [htrack]; decide
  unfold push
  dsimp only
  rw [if_neg (not_not.mpr href)]
  cases hread : co.readModule (env inputInput) with
  | error err =>
    refine ⟨rfl, rfl, ?_, ?_, ?_⟩
    · intro e he; cases he; rfl
    · intro m i e he; cases he
    · intro m i p he; cases he
  | ok loaded =>
    obtain ⟨module, moduleIdentity⟩ := loaded
    dsimp only
    cases hproto : co.moduleToProtoModule module with
    | error err =>
      refine ⟨rfl, rfl, ?_, ?_, ?_⟩
      · intro e he; cases he
      · intro m i e he hpe
        cases he
        rw [hproto] at hpe
        cases hpe
        rfl
      · intro m i p he hpe
        cases he
        rw [hproto] at hpe
        cases hpe
    | ok protoModule =>
      dsimp only
      rw [if_neg htrack2, if_neg hdef, if_pos hguard]
      refine ⟨rfl, rfl, ?_, ?_, ?_⟩
      · intro e he; cases he
      · intro m i e he hpe
        cases he
        rw [hproto] at hpe
        cases hpe
      · intro m i p he hpe
        rfl

/-- The example of the specification for C5: default "master", declared "main",
ref "main", with a module that reads and converts. -/
theorem cross_branch_guard_witness :
    (push (sampleCo [tagA] cmpDiverged (some ⟨"c"⟩, none)) (sampleEnv "main" "master" "main")
      "push").calls = [] ∧
    (push (sampleCo [tagA] cmpDiverged (some ⟨"c"⟩, none)) (sampleEnv "main" "master" "main")
      "push").outcome =
      Outcome.failure (errorsNew "cannot push to main track from a non-default branch") :=
  have h := cross_branch_guard (sampleCo [tagA] cmpDiverged (some ⟨"c"⟩, none))
    (sampleEnv "main" "master" "main") "push" (by decide) (by decide) (by decide) (by decide)
    (by decide)
  ⟨h.1, h.2.2.2.2 "module" sampleIdentity "module" rfl rfl⟩

/-- C6, the claim as stated fails: with the declared track "main" set by hand,
the default branch "master" and the triggering ref "feature", the run makes a
push call whose target track is "main", although the ref is neither empty nor
the default branch. -/
theorem push_to_main_from_other_branch :
    (push (sampleCo [] cmpBehindA (some ⟨"c"⟩, none)) (sampleEnv "main" "master" "feature")
      "push").calls =
      [Call.getRepositoryCommitByReference "acme" "weather" "main",
        Call.push "acme" "weather" "" "module" [sampleCommit] ["main"]] ∧
    sampleEnv "main" "master" "feature" githubRefNameKey = "feature" ∧
    sampleEnv "main" "master" "feature" defaultBranchInput = "master" ∧
    "feature" ≠ "" ∧ "feature" ≠ "master" := by
  decide

/-- C6 as amended: when a run of `push` makes a push call, its only target
track is the effective track, and when that track is "main" the triggering ref
name is empty, or equals the default branch name, or the declared track is
itself "main" and differs from the triggering ref name. -/
theorem push_to_main_track_origin (co : Collaborators) (env : String → String)
    (eventName owner repository branch protoModule : String) (tags tracks : List String)
    (hcall : Call.push owner repository branch protoModule tags tracks ∈
      (push co env eventName).calls) :
    tracks = [effectiveTrack env] ∧
    (effectiveTrack env = "main" →
      env githubRefNameKey = "" ∨ env githubRefNameKey = env defaultBranchInput ∨
        (env trackInput = "main" ∧ env trackInput ≠ env githubRefNameKey)) := by
  obtain ⟨head, tail, hcalls, hhead, htail⟩ := push_calls_shape co env eventName
  rw [hcalls] at hcall
  rcases List.mem_append.mp hcall with hmem | hmem
  · rcases hhead _ hmem with h | h <;> simp [Call.isFetch, Call.isCompare] at h
  rcases htail with rfl | ⟨hguards, moduleIdentity, pm, repair, rfl, hrepair, -⟩
  · simp at hmem
  have htracks : tracks = [effectiveTrack env] := by
    rcases List.mem_cons.mp hmem with h | h
    · simp only [pushCall, Call.push.injEq] at h
      exact h.2.2.2.2.2
    · rcases hrepair with rfl | rfl | ⟨rid, rfl⟩ <;> simp [lookupCall] at h
  refine ⟨htracks, ?_⟩
  intro hmain
  obtain ⟨-, -, hguard⟩ := hguards
  unfold effectiveTrack resolveTrack at hmain
  by_cases hcond : env trackInput = env defaultBranchInput ∧
      (env trackInput = env githubRefNameKey ∨ env githubRefNameKey = "")
  · rcases hcond with ⟨h1, h2 | h2⟩
    · right; left; rw [← h2, h1]
    · left; exact h2
  · rw [if_neg hcond] at hmain
    by_cases href : env trackInput = env githubRefNameKey
    · right; left
      have hdef : env defaultBranchInput = "main" := by
        by_contra hne
        exact hguard ⟨hne, hmain, href⟩
      rw [← href, hmain, hdef]
    · right; right
      exact ⟨hmain, href⟩

/-- A run for C6 as amended: the declared track "master" on the default branch
"master" is pushed to the track "main", and the triggering ref is the default
branch. -/
theorem push_to_main_track_origin_witness :
    Call.push "acme" "weather" "" "module" [sampleCommit] ["main"] ∈
      (push (sampleCo [] cmpBehindA (some ⟨"c"⟩, none)) (sampleEnv "master" "master" "master")
        "push").calls ∧
    (["main"] = [effectiveTrack (sampleEnv "master" "master" "master")] ∧
      (effectiveTrack (sampleEnv "master" "master" "master") = "main" →
        sampleEnv "master" "master" "master" githubRefNameKey = "" ∨
        sampleEnv "master" "master" "master" githubRefNameKey =
          sampleEnv "master" "master" "master" defaultBranchInput ∨
        (sampleEnv "master" "master" "master" trackInput = "main" ∧
          sampleEnv "master" "master" "master" trackInput ≠
            sampleEnv "master" "master" "master" githubRefNameKey))) :=
  ⟨by decide,
    push_to_main_track_origin (sampleCo [] cmpBehindA (some ⟨"c"⟩, none))
      (sampleEnv "master" "master" "master") "push" "acme" "weather" "" "module"
      [sampleCommit] ["main"] (by decide)⟩

theorem getGithubClient_ok (co : Collaborators) (env : String → String)
    (h : getGithubClient co env = Except.ok ()) :
    env githubTokenInput ≠ "" ∧ env githubRepositoryKey ≠ "" ∧
      (stringsSplitSlash (env githubRepositoryKey)).length = 2 := by
  unfold getGithubClient at h
  dsimp only at h
  by_cases ht : env githubTokenInput = ""
  · rw [if_pos ht] at h; cases h
  rw [if_neg ht] at h
  by_cases hr : env githubRepositoryKey = ""
  · rw [if_pos hr] at h; cases h
  rw [if_neg hr] at h
  by_cases hl : (stringsSplitSlash (env githubRepositoryKey)).length = 2
  · exact ⟨ht, hr, hl⟩
  · rw [if_pos hl] at h; cases h

/-- C7, the claim as stated fails: with an empty git-host token and every other
input set, the run has already fetched the tags of the track from the registry
when it returns the error. -/
theorem push_fetches_tags_before_token_check :
    sampleEnvWith "dev" "master" "dev" "" "acme/weather" sampleCommit githubTokenInput = "" ∧
    push (sampleCo [tagA] cmpDiverged (some ⟨"c"⟩, none))
        (sampleEnvWith "dev" "master" "dev" "" "acme/weather" sampleCommit) "push" =
      ⟨Outcome.failure (errorsNew "a github authentication token was not provided"), [],
        [Call.getRepositoryCommitByReference "acme" "weather" "dev"]⟩ := by
  decide

theorem push_configuration_errors_branch (co : Collaborators) (env : String → String)
    (eventName : String)
    (href : env githubRefTypeKey = githubRefTypeBranch)
    (hmissing : env trackInput = "" ∨ env defaultBranchInput = "" ∨ env githubSHAKey = "" ∨
      env githubTokenInput = "" ∨ env githubRepositoryKey = "" ∨
      (stringsSplitSlash (env githubRepositoryKey)).length ≠ 2) :
    (∃ err, (push co env eventName).outcome = Outcome.failure err) ∧
    (push co env eventName).stdout = [] ∧
    ((push co env eventName).calls = [] ∨
      ∃ moduleIdentity, (push co env eventName).calls = [fetchCall env moduleIdentity]) ∧
    ((env trackInput = "" ∨ env defaultBranchInput = "") →
      (push co env eventName).calls = []) := by
  have hstop : ∀ err : Error,
      (∃ e, (Run.mk (Outcome.failure err) [] []).outcome = Outcome.failure e) ∧
      (Run.mk (Outcome.failure err) [] []).stdout = [] ∧
      ((Run.mk (Outcome.failure err) [] []).calls = [] ∨
        ∃ moduleIdentity, (Run.mk (Outcome.failure err) [] []).calls =
          [fetchCall env moduleIdentity]) ∧
      ((env trackInput = "" ∨ env defaultBranchInput = "") →
        (Run.mk (Outcome.failure err) [] []).calls = []) :=
    fun err => ⟨⟨err, rfl⟩, rfl, Or.inl rfl, fun _ => rfl⟩
  unfold push
  dsimp only
  rw [if_neg (not_not.mpr href)]
  cases co.readModule (env inputInput) with
  | error err => exact hstop err
  | ok loaded =>
    obtain ⟨module, moduleIdentity⟩ := loaded
    dsimp only
    cases co.moduleToProtoModule module with
    | error err => exact hstop err
    | ok protoModule =>
      dsimp only
      by_cases htrack : env trackInput = ""
      · rw [if_pos htrack]; exact hstop _
      rw [if_neg htrack]
      by_cases hdef : env defaultBranchInput = ""
      · rw [if_pos hdef]; exact hstop _
      rw [if_neg hdef]
      by_cases hguard : env defaultBranchInput ≠ "main" ∧ env trackInput = "main" ∧
          env trackInput = env githubRefNameKey
      · rw [if_pos hguard]; exact hstop _
      rw [if_neg hguard]
      have hnot : ¬ (env trackInput = "" ∨ env defaultBranchInput = "") := by
        rintro (h | h)
        · exact htrack h
        · exact hdef h
      have hfetched : ∀ err : Error,
          (∃ e, (Run.mk (Outcome.failure err) [] [fetchCall env moduleIdentity]).outcome =
            Outcome.failure e) ∧
          (Run.mk (Outcome.failure err) [] [fetchCall env moduleIdentity]).stdout = [] ∧
          ((Run.mk (Outcome.failure err) [] [fetchCall env moduleIdentity]).calls = [] ∨
            ∃ i, (Run.mk (Outcome.failure err) [] [fetchCall env moduleIdentity]).calls =
              [fetchCall env i]) ∧
          ((env trackInput = "" ∨ env defaultBranchInput = "") →
            (Run.mk (Outcome.failure err) [] [fetchCall env moduleIdentity]).calls = []) :=
        fun err => ⟨⟨err, rfl⟩, rfl, Or.inr ⟨moduleIdentity, rfl⟩, fun h => absurd h hnot⟩
      unfold pushTrack getRegistryProvider getTags
      cases co.newRegistryProvider with
      | error err => exact hstop err
      | ok u =>
        dsimp only
        cases co.newRepositoryCommitService moduleIdentity.remote with
        | error err => exact hstop err
        | ok u2 =>
          dsimp only
          cases co.getRepositoryCommitByReference moduleIdentity.owner
            moduleIdentity.repository
            (resolveTrack (env trackInput) (env defaultBranchInput) (env githubRefNameKey)) with
          | error err => exact hfetched err
          | ok raw =>
            dsimp only
            cases hgh : getGithubClient co env with
            | error err => exact hfetched err
            | ok u3 =>
              dsimp only
              by_cases hsha : env githubSHAKey = ""
              · rw [if_pos hsha]; exact hfetched _
              · exfalso
                obtain ⟨ht, hr, hl⟩ := getGithubClient_ok co env hgh
                rcases hmissing with h | h | h | h | h | h
                · exact htrack h
                · exact hdef h
                · exact hsha h
                · exact ht h
                · exact hr h
                · exact h hl

/-- C7 as amended: for a missing or malformed input (an empty declared track,
default branch, commit hash, git-host token or repository name, or a
repository name that does not split at "/" into two parts), `push` with a
branch ref type returns an error, writes nothing, and makes no call other
than, at most, the one fetch of the tags of the track, and no call at all when
the declared track or the default branch is empty; with another ref type it
returns success with a notice and makes no call. -/
theorem push_configuration_errors (co : Collaborators) (env : String → String)
    (eventName : String)
    (hmissing : env trackInput = "" ∨ env defaultBranchInput = "" ∨ env githubSHAKey = "" ∨
      env githubTokenInput = "" ∨ env githubRepositoryKey = "" ∨
      (stringsSplitSlash (env githubRepositoryKey)).length ≠ 2) :
    (env githubRefTypeKey = githubRefTypeBranch →
      (∃ err, (push co env eventName).outcome = Outcome.failure err) ∧
      (push co env eventName).stdout = [] ∧
      ((push co env eventName).calls = [] ∨
        ∃ moduleIdentity, (push co env eventName).calls = [fetchCall env moduleIdentity]) ∧
      ((env trackInput = "" ∨ env defaultBranchInput = "") →
        (push co env eventName).calls = [])) ∧
    (env githubRefTypeKey ≠ githubRefTypeBranch →
      (push co env eventName).outcome = Outcome.success ∧
      (∃ message, (push co env eventName).stdout = [Line.notice message]) ∧
      (push co env eventName).calls = []) := by
  refine ⟨fun href => push_configuration_errors_branch co env eventName href hmissing, ?_⟩
  intro href
  unfold push
  dsimp only
  rw [if_pos href]
  exact ⟨rfl, ⟨_, rfl⟩, rfl⟩

/-- A run for C7 as amended: the declared track is empty and nothing is
called. -/
theorem push_configuration_errors_witness :
    sampleEnv "" "master" "dev" trackInput = "" ∧
    sampleEnv "" "master" "dev" githubRefTypeKey = githubRefTypeBranch ∧
    push (sampleCo [tagA] cmpDiverged (some ⟨"c"⟩, none)) (sampleEnv "" "master" "dev")
      "push" = ⟨Outcome.failure (errorsNew "track not provided"), [], []⟩ ∧
    (push (sampleCo [tagA] cmpDiverged (some ⟨"c"⟩, none)) (sampleEnv "" "master" "dev")
      "push").calls = [] :=
  ⟨by decide, by decide, by decide,
    ((push_configuration_errors (sampleCo [tagA] cmpDiverged (some ⟨"c"⟩, none))
      (sampleEnv "" "master" "dev") "push" (Or.inl (by decide))).1 (by decide)).2.2.2
      (Or.inl (by decide))⟩

/-- C8, the claim as stated fails: the one tag of the track compares as
diverged, the warning is written and the tag is compared, but the provider
yields no push service, and the run ends without a push call. -/
theorem push_without_push_service :
    ReachesTagLoop (noPushServiceCo [hexF40]) (sampleEnv "dev" "master" "dev") sampleIdentity
      "module" [hexF40] ∧
    (noPushServiceCo [hexF40]).compareCommits hexF40 sampleCommit =
      Except.ok CompareCommitsStatus.diverged ∧
    push (noPushServiceCo [hexF40]) (sampleEnv "dev" "master" "dev") "push" =
      ⟨Outcome.failure noServiceError, [Line.notice (divergedMessage "dev")],
        [Call.getRepositoryCommitByReference "acme" "weather" "dev",
          Call.compareCommits hexF40 sampleCommit]⟩ :=
  ⟨⟨by decide, ⟨"module", rfl, rfl⟩, by decide, by decide, by decide, rfl, rfl,
      ⟨[hexF40], rfl, by decide⟩, rfl, by decide⟩,
    rfl, by decide⟩

/-- C8 as amended: when the run reaches the loop over the filtered tags and
every tag compares as ahead or diverged, `push` writes one warning for every
diverged tag and after them nothing but outputs, and compares every tag; when
the provider yields a push service, the calls are the tag fetch, the compare
calls of all the tags, one push call with the current commit as its only tag
and the effective track as its only track, and the calls of the tag repair, so
exactly one push call; when the provider yields no push service, the run
fails with the provider error after the compare calls, without a push call. -/
theorem push_continues_after_diverged (co : Collaborators) (env : String → String)
    (eventName : String) (moduleIdentity : ModuleIdentity) (protoModule : String)
    (tags : List String)
    (hreach : ReachesTagLoop co env moduleIdentity protoModule tags)
    (hall : ∀ x ∈ tags,
      co.compareCommits x (env githubSHAKey) = Except.ok CompareCommitsStatus.ahead ∨
      co.compareCommits x (env githubSHAKey) = Except.ok CompareCommitsStatus.diverged) :
    (∃ outputs, (push co env eventName).stdout =
        divergedWarnings co (effectiveTrack env) (env githubSHAKey) tags ++ outputs ∧
      ∀ l ∈ outputs, l.isOutput = true) ∧
    (co.newPushService moduleIdentity.remote = Except.ok () →
      (∃ repair, (push co env eventName).calls =
          fetchCall env moduleIdentity :: compareCalls (env githubSHAKey) tags ++
            Call.push moduleIdentity.owner moduleIdentity.repository "" protoModule
              [env githubSHAKey] [effectiveTrack env] :: repair ∧
        RepairCalls moduleIdentity (effectiveTrack env) (env githubSHAKey) repair) ∧
      (push co env eventName).calls.countP Call.isPush = 1) ∧
    (∀ err, co.newPushService moduleIdentity.remote = Except.error err →
      push co env eventName =
        ⟨Outcome.failure err, divergedWarnings co (effectiveTrack env) (env githubSHAKey) tags,
          fetchCall env moduleIdentity :: compareCalls (env githubSHAKey) tags⟩) := by
  have hpass : ∀ x ∈ tags, Passes co (env githubSHAKey) x := by
    intro x hx
    rcases hall x hx with h | h
    · exact Or.inl h
    · exact Or.inr (Or.inl h)
  have hrun := push_of_reaches co env eventName moduleIdentity protoModule tags hreach
  have hloop := pushTags_passing co moduleIdentity protoModule (effectiveTrack env)
    (env githubSHAKey) [] tags hpass
  rw [List.append_nil] at hloop
  rw [hloop, Run.after_after] at hrun
  simp only [pushTags, List.nil_append] at hrun
  have hcmp0 : ∀ c ∈ compareCalls (env githubSHAKey) tags, c.isPush = false := by
    intro c hc
    obtain ⟨x, -, rfl⟩ := List.mem_map.mp hc
    rfl
  refine ⟨?_, ?_, ?_⟩
  · refine ⟨(pushModule co moduleIdentity protoModule (effectiveTrack env) (env githubSHAKey)
      [] []).stdout, ?_, pushModule_stdout co moduleIdentity protoModule _ _⟩
    rw [hrun]
    rfl
  · intro hsvc
    obtain ⟨repair, hcalls, hshape, -⟩ := pushModule_calls co moduleIdentity protoModule
      (effectiveTrack env) (env githubSHAKey) hsvc
    have hfull : (push co env eventName).calls =
        fetchCall env moduleIdentity :: compareCalls (env githubSHAKey) tags ++
          Call.push moduleIdentity.owner moduleIdentity.repository "" protoModule
            [env githubSHAKey] [effectiveTrack env] :: repair := by
      rw [hrun]
      simp [Run.after, hcalls]
    refine ⟨⟨repair, hfull, hshape⟩, ?_⟩
    rw [hfull, List.countP_append, List.countP_cons, List.countP_cons]
    have h0 : (compareCalls (env githubSHAKey) tags).countP Call.isPush = 0 := by
      rw [List.countP_eq_zero]
      intro c hc
      simp [hcmp0 c hc]
    rw [h0]
    rcases hshape with rfl | rfl | ⟨rid, rfl⟩ <;>
      simp [fetchCall, lookupCall, Call.isPush, List.countP_cons]
  · intro err hsvc
    rw [hrun, pushModule_no_service co moduleIdentity protoModule _ _ err hsvc]
    simp [Run.after]

/-- The example of the specification for C8: a single tag comparing as diverged
is followed by a push call. -/
theorem push_continues_after_diverged_witness :
    ReachesTagLoop (sampleCo [hexF40] cmpDiverged (some ⟨"c"⟩, none))
      (sampleEnv "dev" "master" "dev") sampleIdentity "module" [hexF40] ∧
    (push (sampleCo [hexF40] cmpDiverged (some ⟨"c"⟩, none)) (sampleEnv "dev" "master" "dev")
      "push").calls.countP Call.isPush = 1 ∧
    (push (sampleCo [hexF40] cmpDiverged (some ⟨"c"⟩, none)) (sampleEnv "dev" "master" "dev")
      "push").calls =
      [Call.getRepositoryCommitByReference "acme" "weather" "dev",
        Call.compareCommits hexF40 sampleCommit,
        Call.push "acme" "weather" "" "module" [sampleCommit] ["dev"]] :=
  have hreach : ReachesTagLoop (sampleCo [hexF40] cmpDiverged (some ⟨"c"⟩, none))
      (sampleEnv "dev" "master" "dev") sampleIdentity "module" [hexF40] :=
    ⟨by decide, ⟨"module", rfl, rfl⟩, by decide, by decide, by decide, rfl, rfl,
      ⟨[hexF40], rfl, by decide⟩, rfl, by decide⟩
  ⟨hreach,
    ((push_continues_after_diverged (sampleCo [hexF40] cmpDiverged (some ⟨"c"⟩, none))
      (sampleEnv "dev" "master" "dev") "push" sampleIdentity "module" [hexF40] hreach
      (fun _ _ => Or.inr rfl)).2.1 rfl).2,
    by decide⟩

theorem SameButCompares.refl (r : Run) : SameButCompares r r := ⟨rfl, rfl, rfl⟩

theorem SameButCompares.trans {r1 r2 r3 : Run} (h12 : SameButCompares r1 r2)
    (h23 : SameButCompares r2 r3) : SameButCompares r1 r3 :=
  ⟨h12.1.trans h23.1, h12.2.1.trans h23.2.1, h12.2.2.trans h23.2.2⟩

theorem SameButCompares.after {r1 r2 : Run} (stdout : List Line) (calls : List Call)
    (h : SameButCompares r1 r2) :
    SameButCompares (Run.after stdout calls r1) (Run.after stdout calls r2) := by
  obtain ⟨h1, h2, h3⟩ := h
  refine ⟨h1, ?_, ?_⟩
  · simp [Run.after, h2]
  · simp [Run.after, List.filter_append, h3]

theorem SameButCompares.after_compare (r : Run) (base head : String) :
    SameButCompares (Run.after [] [Call.compareCommits base head] r) r := by
  refine ⟨rfl, ?_, ?_⟩
  · simp [Run.after]
  · simp [Run.after, List.filter_cons, Call.isCompare]

theorem pushTags_withTags (co : Collaborators) (fetched : List String)
    (moduleIdentity : ModuleIdentity) (protoModule track currentGitCommit : String)
    (tags : List String) :
    ∀ (stdout : List Line) (calls : List Call),
      pushTags (co.withTags fetched) moduleIdentity protoModule track currentGitCommit tags
          stdout calls =
        pushTags co moduleIdentity protoModule track currentGitCommit tags stdout calls := by
  induction tags with
  | nil => intro stdout calls; rfl
  | cons tag rest ih =>
    intro stdout calls
    simp only [pushTags, ih]
    rfl

theorem pushTags_drop_not_found (co : Collaborators) (moduleIdentity : ModuleIdentity)
    (protoModule track currentGitCommit : String) (tag : String) (later : List String)
    (hnf : NotFound co currentGitCommit tag) :
    ∀ before : List String,
      SameButCompares
        (pushTags co moduleIdentity protoModule track currentGitCommit
          (before ++ tag :: later) [] [])
        (pushTags co moduleIdentity protoModule track currentGitCommit
          (before ++ later) [] []) := by
  obtain ⟨err, herr, hflag⟩ := hnf
  intro before
  induction before with
  | nil =>
    simp only [List.nil_append, pushTags, herr, hflag, if_true]
    rw [pushTags_frame]
    exact SameButCompares.after_compare _ _ _
  | cons x more ih =>
    simp only [List.cons_append, pushTags, List.nil_append, List.append_eq]
    cases co.compareCommits x currentGitCommit with
    | error e =>
      by_cases h : e.ghNotFound = true
      · simp only [h, if_true]
        rw [pushTags_frame, pushTags_frame _ _ _ _ _ (more ++ later)]
        exact SameButCompares.after _ _ ih
      · simp only [h, if_false]
        exact SameButCompares.refl _
    | ok status =>
      cases status with
      | identical => exact SameButCompares.refl _
      | behind => exact SameButCompares.refl _
      | diverged =>
        dsimp only
        rw [pushTags_frame, pushTags_frame _ _ _ _ _ (more ++ later)]
        exact SameButCompares.after _ _ ih
      | ahead =>
        dsimp only
        rw [pushTags_frame, pushTags_frame _ _ _ _ _ (more ++ later)]
        exact SameButCompares.after _ _ ih
      | other rendered => exact SameButCompares.refl _

theorem pushTrack_withTags (co : Collaborators) (env : String → String)
    (moduleIdentity : ModuleIdentity) (protoModule track : String) (tags1 tags2 : List String)
    (h : SameButCompares
      (pushTags co moduleIdentity protoModule track (env githubSHAKey)
        (keepCommitTags tags1) [] [])
      (pushTags co moduleIdentity protoModule track (env githubSHAKey)
        (keepCommitTags tags2) [] [])) :
    SameButCompares (pushTrack (co.withTags tags1) env moduleIdentity protoModule track)
      (pushTrack (co.withTags tags2) env moduleIdentity protoModule track) := by
  have hgh : ∀ tags, getGithubClient (co.withTags tags) env = getGithubClient co env :=
    fun _ => rfl
  have e1 : ∀ tags, (co.withTags tags).newRegistryProvider = co.newRegistryProvider :=
    fun _ => rfl
  have e2 : ∀ tags, (co.withTags tags).newRepositoryCommitService =
      co.newRepositoryCommitService := fun _ => rfl
  have e3 : ∀ tags owner repository reference,
      (co.withTags tags).getRepositoryCommitByReference owner repository reference =
        Except.ok tags := fun _ _ _ _ => rfl
  unfold pushTrack getRegistryProvider getTags
  simp only [e1, e2, e3, hgh, pushTags_withTags, List.nil_append]
  cases co.newRegistryProvider with
  | error err => exact SameButCompares.refl _
  | ok u =>
    dsimp only
    cases co.newRepositoryCommitService moduleIdentity.remote with
    | error err => exact SameButCompares.refl _
    | ok u2 =>
      dsimp only
      cases getGithubClient co env with
      | error err => exact SameButCompares.refl _
      | ok u3 =>
        dsimp only
        by_cases hsha : env githubSHAKey = ""
        · simp only [hsha, if_true]
          exact SameButCompares.refl _
        · simp only [hsha, if_false]
          rw [pushTags_frame, pushTags_frame _ _ _ _ _ (keepCommitTags tags2)]
          exact SameButCompares.after _ _ h

theorem push_withTags (co : Collaborators) (env : String → String) (eventName : String)
    (tags1 tags2 : List String)
    (h : ∀ moduleIdentity protoModule, SameButCompares
      (pushTags co moduleIdentity protoModule (effectiveTrack env) (env githubSHAKey)
        (keepCommitTags tags1) [] [])
      (pushTags co moduleIdentity protoModule (effectiveTrack env) (env githubSHAKey)
        (keepCommitTags tags2) [] [])) :
    SameButCompares (push (co.withTags tags1) env eventName)
      (push (co.withTags tags2) env eventName) := by
  have hstep : ∀ moduleIdentity protoModule,
      SameButCompares
        (pushTrack (co.withTags tags1) env moduleIdentity protoModule (effectiveTrack env))
        (pushTrack (co.withTags tags2) env moduleIdentity protoModule (effectiveTrack env)) :=
    fun moduleIdentity protoModule =>
      pushTrack_withTags co env moduleIdentity protoModule _ tags1 tags2
        (h moduleIdentity protoModule)
  unfold effectiveTrack at hstep
  unfold push
  have hq : ∀ tags, (co.withTags tags).quote = co.quote := fun _ => rfl
  have hr : ∀ tags, (co.withTags tags).readModule = co.readModule := fun _ => rfl
  have hp : ∀ tags, (co.withTags tags).moduleToProtoModule = co.moduleToProtoModule :=
    fun _ => rfl
  simp only [hq, hr, hp]
  by_cases href : env githubRefTypeKey = githubRefTypeBranch
  swap
  · rw [if_pos href, if_pos href]
    exact SameButCompares.refl _
  rw [if_neg (not_not.mpr href), if_neg (not_not.mpr href)]
  cases co.readModule (env inputInput) with
  | error err => exact SameButCompares.refl _
  | ok loaded =>
    obtain ⟨module, moduleIdentity⟩ := loaded
    dsimp only
    cases co.moduleToProtoModule module with
    | error err => exact SameButCompares.refl _
    | ok protoModule =>
      dsimp only
      by_cases htrack : env trackInput = ""
      · rw [if_pos htrack, if_pos htrack]
        exact SameButCompares.refl _
      rw [if_neg htrack, if_neg htrack]
      by_cases hdef : env defaultBranchInput = ""
      · rw [if_pos hdef, if_pos hdef]
        exact SameButCompares.refl _
      rw [if_neg hdef, if_neg hdef]
      by_cases hguard : env defaultBranchInput ≠ "main" ∧ env trackInput = "main" ∧
          env trackInput = env githubRefNameKey
      · rw [if_pos hguard, if_pos hguard]
        exact SameButCompares.refl _
      rw [if_neg hguard, if_neg hguard]
      exact hstep moduleIdentity protoModule

theorem push_falls_through (co : Collaborators) (env : String → String) (eventName : String)
    (moduleIdentity : ModuleIdentity) (protoModule : String) (tags : List String)
    (hreach : ReachesTagLoop co env moduleIdentity protoModule tags)
    (hpass : ∀ x ∈ tags, Passes co (env githubSHAKey) x) :
    push co env eventName =
      Run.after (divergedWarnings co (effectiveTrack env) (env githubSHAKey) tags)
        (fetchCall env moduleIdentity :: compareCalls (env githubSHAKey) tags)
        (pushModule co moduleIdentity protoModule (effectiveTrack env) (env githubSHAKey)
          [] []) := by
  have hloop := pushTags_passing co moduleIdentity protoModule (effectiveTrack env)
    (env githubSHAKey) [] tags hpass
  rw [List.append_nil] at hloop
  rw [push_of_reaches co env eventName moduleIdentity protoModule tags hreach, hloop,
    Run.after_after]
  simp [pushTags]

theorem countP_isPush_one (first : Call) (currentGitCommit : String) (tags : List String)
    (moduleIdentity : ModuleIdentity) (owner repository branch protoModule : String)
    (pushTags pushTracks : List String) (track : String) (repair : List Call)
    (hfirst : first.isPush = false)
    (hrepair : RepairCalls moduleIdentity track currentGitCommit repair) :
    (first :: compareCalls currentGitCommit tags ++
      Call.push owner repository branch protoModule pushTags pushTracks :: repair).countP
        Call.isPush = 1 := by
  have h0 : (compareCalls currentGitCommit tags).countP Call.isPush = 0 := by
    rw [List.countP_eq_zero]
    intro c hc
    obtain ⟨x, -, rfl⟩ := List.mem_map.mp hc
    simp [Call.isPush]
  rw [List.countP_append, List.countP_cons, List.countP_cons, h0]
  simp only [hfirst]
  rcases hrepair with rfl | rfl | ⟨rid, rfl⟩ <;>
    simp [lookupCall, Call.isPush, List.countP_cons]

/-- C9, the claim as stated fails: the one tag of the track is not found, so
the list is all not-found, but the provider yields no push service, and the
run ends with the provider error after the compare call, without a push
call. -/
theorem push_not_found_without_push_service :
    ReachesTagLoop (notFoundNoPushServiceCo [tagA]) (sampleEnv "dev" "master" "dev")
      sampleIdentity "module" [tagA] ∧
    NotFound (notFoundNoPushServiceCo [tagA]) sampleCommit tagA ∧
    push (notFoundNoPushServiceCo [tagA]) (sampleEnv "dev" "master" "dev") "push" =
      ⟨Outcome.failure noServiceError, [],
        [Call.getRepositoryCommitByReference "acme" "weather" "dev",
          Call.compareCommits tagA sampleCommit]⟩ ∧
    (push (notFoundNoPushServiceCo [tagA]) (sampleEnv "dev" "master" "dev")
      "push").calls.countP Call.isPush = 0 :=
  ⟨⟨by decide, ⟨"module", rfl, rfl⟩, by decide, by decide, by decide, rfl, rfl,
      ⟨[tagA], rfl, by decide⟩, rfl, by decide⟩,
    ⟨⟨"reference not found", ErrorCode.other, true⟩, rfl, rfl⟩, by decide, by decide⟩

/-- C9 as amended: a tag that the git host does not find is transparent.
Whatever tags the registry holds before and after it, the run of `push` on the
list with the tag and the run on the list without it end the same way, write
the same notices and outputs, and make the same calls apart from compare
calls; a list of tags that are all not found behaves in this sense like the
empty list; and a run that reaches the loop with such a list compares every
tag, writes no notice, and goes on to the push step: when the provider yields
a push service it makes exactly one push call, with the current commit as its
only tag and the effective track as its only track, and when the provider
yields no push service it fails with the provider error without a push
call. -/
theorem push_not_found_tag_transparent (co : Collaborators) (env : String → String)
    (eventName : String) :
    (∀ (before : List String) (tag : String) (later : List String),
      NotFound co (env githubSHAKey) tag →
      SameButCompares (push (co.withTags (before ++ tag :: later)) env eventName)
        (push (co.withTags (before ++ later)) env eventName)) ∧
    (∀ tags : List String, (∀ x ∈ tags, NotFound co (env githubSHAKey) x) →
      SameButCompares (push (co.withTags tags) env eventName)
        (push (co.withTags []) env eventName)) ∧
    (∀ (moduleIdentity : ModuleIdentity) (protoModule : String) (tags : List String),
      ReachesTagLoop co env moduleIdentity protoModule tags →
      (∀ x ∈ tags, NotFound co (env githubSHAKey) x) →
      push co env eventName =
        Run.after [] (fetchCall env moduleIdentity :: compareCalls (env githubSHAKey) tags)
          (pushModule co moduleIdentity protoModule (effectiveTrack env) (env githubSHAKey)
            [] []) ∧
      (∀ l ∈ (push co env eventName).stdout, l.isOutput = true) ∧
      (co.newPushService moduleIdentity.remote = Except.ok () →
        (∃ repair, (push co env eventName).calls =
            fetchCall env moduleIdentity :: compareCalls (env githubSHAKey) tags ++
              Call.push moduleIdentity.owner moduleIdentity.repository "" protoModule
                [env githubSHAKey] [effectiveTrack env] :: repair ∧
          RepairCalls moduleIdentity (effectiveTrack env) (env githubSHAKey) repair) ∧
        (push co env eventName).calls.countP Call.isPush = 1) ∧
      (∀ err, co.newPushService moduleIdentity.remote = Except.error err →
        push co env eventName =
          ⟨Outcome.failure err, [],
            fetchCall env moduleIdentity :: compareCalls (env githubSHAKey) tags⟩)) := by
  have hone : ∀ (before : List String) (tag : String) (later : List String),
      NotFound co (env githubSHAKey) tag →
      SameButCompares (push (co.withTags (before ++ tag :: later)) env eventName)
        (push (co.withTags (before ++ later)) env eventName) := by
    intro before tag later hnf
    apply push_withTags
    intro moduleIdentity protoModule
    simp only [keepCommitTags_eq_filter, List.filter_append, List.filter_cons]
    by_cases hkeep : isCommitTag tag = true
    · simp only [hkeep, if_true]
      exact pushTags_drop_not_found co moduleIdentity protoModule _ _ tag _ hnf _
    · simp only [hkeep, if_false]
      exact SameButCompares.refl _
  refine ⟨hone, ?_, ?_⟩
  · intro tags
    induction tags with
    | nil => intro _; exact SameButCompares.refl _
    | cons t rest ih =>
      intro hall
      have h1 := hone [] t rest (hall t (List.mem_cons_self _ _))
      have h2 := ih (fun x hx => hall x (List.mem_cons_of_mem _ hx))
      exact SameButCompares.trans h1 h2
  · intro moduleIdentity protoModule tags hreach hall
    have hpass : ∀ x ∈ tags, Passes co (env githubSHAKey) x :=
      fun x hx => Or.inr (Or.inr (hall x hx))
    have hnone : divergedWarnings co (effectiveTrack env) (env githubSHAKey) tags = [] := by
      unfold divergedWarnings
      rw [List.map_eq_nil_iff, List.filter_eq_nil_iff]
      intro x hx
      obtain ⟨err, herr, -⟩ := hall x hx
      simp [comparesDiverged, herr]
    have hrun := push_falls_through co env eventName moduleIdentity protoModule tags hreach
      hpass
    rw [hnone] at hrun
    refine ⟨hrun, ?_, ?_, ?_⟩
    · rw [hrun]
      intro l hl
      simp only [Run.after, List.nil_append] at hl
      exact pushModule_stdout co moduleIdentity protoModule _ _ l hl
    · intro hsvc
      obtain ⟨repair, hcalls, hshape, -⟩ := pushModule_calls co moduleIdentity protoModule
        (effectiveTrack env) (env githubSHAKey) hsvc
      have hfull : (push co env eventName).calls =
          fetchCall env moduleIdentity :: compareCalls (env githubSHAKey) tags ++
            Call.push moduleIdentity.owner moduleIdentity.repository "" protoModule
              [env githubSHAKey] [effectiveTrack env] :: repair := by
        rw [hrun]
        simp [Run.after, hcalls]
      refine ⟨⟨repair, hfull, hshape⟩, ?_⟩
      rw [hfull]
      exact countP_isPush_one _ _ _ moduleIdentity _ _ _ _ _ _ _ repair rfl hshape
    · intro err hsvc
      rw [hrun, pushModule_no_service co moduleIdentity protoModule _ _ err hsvc]
      simp [Run.after]

/-- Two runs for C9 as amended. The registry holds the tags A and B, the git
host does not find A and reports B as behind: the run is the run on B alone,
apart from the compare call for A. The registry holds the tag A alone, which
is not found: the run compares it and makes one push call. -/
theorem push_not_found_tag_transparent_witness :
    NotFound (sampleCo [] cmpNotFoundA (none, none))
      (sampleEnv "dev" "master" "dev" githubSHAKey) tagA ∧
    SameButCompares
      (push (sampleCo [tagA, tagB] cmpNotFoundA (none, none)) (sampleEnv "dev" "master" "dev")
        "push")
      (push (sampleCo [tagB] cmpNotFoundA (none, none)) (sampleEnv "dev" "master" "dev")
        "push") ∧
    (push (sampleCo [tagA, tagB] cmpNotFoundA (none, none)) (sampleEnv "dev" "master" "dev")
      "push").calls =
      [Call.getRepositoryCommitByReference "acme" "weather" "dev",
        Call.compareCommits tagA sampleCommit, Call.compareCommits tagB sampleCommit] ∧
    (push (sampleCo [tagB] cmpNotFoundA (none, none)) (sampleEnv "dev" "master" "dev")
      "push").calls =
      [Call.getRepositoryCommitByReference "acme" "weather" "dev",
        Call.compareCommits tagB sampleCommit] ∧
    ReachesTagLoop (sampleCo [tagA] cmpNotFoundA (some ⟨"c"⟩, none))
      (sampleEnv "dev" "master" "dev") sampleIdentity "module" [tagA] ∧
    (push (sampleCo [tagA] cmpNotFoundA (some ⟨"c"⟩, none)) (sampleEnv "dev" "master" "dev")
      "push").calls.countP Call.isPush = 1 ∧
    (push (sampleCo [tagA] cmpNotFoundA (some ⟨"c"⟩, none)) (sampleEnv "dev" "master" "dev")
      "push").calls =
      [Call.getRepositoryCommitByReference "acme" "weather" "dev",
        Call.compareCommits tagA sampleCommit,
        Call.push "acme" "weather" "" "module" [sampleCommit] ["dev"]] :=
  have hnf : NotFound (sampleCo [] cmpNotFoundA (none, none))
      (sampleEnv "dev" "master" "dev" githubSHAKey) tagA :=
    ⟨⟨"reference not found", ErrorCode.other, true⟩, rfl, rfl⟩
  have hreach : ReachesTagLoop (sampleCo [tagA] cmpNotFoundA (some ⟨"c"⟩, none))
      (sampleEnv "dev" "master" "dev") sampleIdentity "module" [tagA] :=
    ⟨by decide, ⟨"module", rfl, rfl⟩, by decide, by decide, by decide, rfl, rfl,
      ⟨[tagA], rfl, by decide⟩, rfl, by decide⟩
  ⟨hnf,
    (push_not_found_tag_transparent (sampleCo [] cmpNotFoundA (none, none))
      (sampleEnv "dev" "master" "dev") "push").1 [] tagA [tagB] hnf,
    by decide, by decide, hreach,
    (((push_not_found_tag_transparent (sampleCo [tagA] cmpNotFoundA (some ⟨"c"⟩, none))
      (sampleEnv "dev" "master" "dev") "push").2.2 sampleIdentity "module" [tagA] hreach
      (fun x hx => by
        rw [List.mem_singleton.mp hx]
        exact ⟨⟨"reference not found", ErrorCode.other, true⟩, rfl, rfl⟩)).2.2.1 rfl).2,
    by decide⟩

theorem mem_before_of_split (p : Call) (c : Call) (later repair : List Call) :
    ∀ (head before : List Call), c ∉ head → c ≠ p →
      before ++ c :: later = head ++ p :: repair → p ∈ before ∧ repair ≠ [] := by
  intro head
  induction head with
  | nil =>
    intro before _ hne h
    cases before with
    | nil =>
      simp only [List.nil_append, List.cons.injEq] at h
      exact absurd h.1 hne
    | cons b bs =>
      simp only [List.cons_append, List.nil_append, List.cons.injEq] at h
      refine ⟨by simp [h.1], ?_⟩
      rw [← h.2]
      simp
  | cons x xs ih =>
    intro before hnot hne h
    cases before with
    | nil =>
      simp only [List.nil_append, List.cons_append, List.cons.injEq] at h
      exact absurd (by simp [h.1]) hnot
    | cons b bs =>
      simp only [List.cons_append, List.cons.injEq] at h
      have := ih bs (fun hc => hnot (List.mem_cons_of_mem _ hc)) hne h.2
      exact ⟨List.mem_cons_of_mem _ this.1, this.2⟩

/-- C10: whatever the collaborators answer, one run of `push` makes at most one
push call, at most one repository lookup and at most one tag creation, and a
lookup or tag creation comes only after a push call of that run which the
registry answered with the code "already exists". -/
theorem push_call_budget (co : Collaborators) (env : String → String) (eventName : String) :
    (push co env eventName).calls.countP Call.isPush ≤ 1 ∧
    (push co env eventName).calls.countP Call.isLookup ≤ 1 ∧
    (push co env eventName).calls.countP Call.isCreateTag ≤ 1 ∧
    ∀ (before : List Call) (c : Call) (later : List Call),
      (push co env eventName).calls = before ++ c :: later →
      (c.isLookup = true ∨ c.isCreateTag = true) →
      ∃ owner repository branch protoModule tags tracks pin err,
        Call.push owner repository branch protoModule tags tracks ∈ before ∧
        co.push owner repository branch protoModule tags tracks = (pin, some err) ∧
        err.code = ErrorCode.alreadyExists := by
  obtain ⟨head, tail, hcalls, hhead, htail⟩ := push_calls_shape co env eventName
  have hhead0 : head.countP Call.isPush = 0 ∧ head.countP Call.isLookup = 0 ∧
      head.countP Call.isCreateTag = 0 := by
    refine ⟨?_, ?_, ?_⟩ <;>
    · rw [List.countP_eq_zero]
      intro c hc
      rcases hhead c hc with h | h <;> cases c <;> simp_all [Call.isFetch, Call.isCompare,
        Call.isPush, Call.isLookup, Call.isCreateTag]
  have hheadmem : ∀ c : Call, (c.isLookup = true ∨ c.isCreateTag = true) → c ∉ head := by
    intro c hc hmem
    rcases hhead c hmem with h | h <;> cases c <;> simp_all [Call.isFetch, Call.isCompare,
      Call.isLookup, Call.isCreateTag]
  rw [hcalls]
  simp only [List.countP_append, hhead0.1, hhead0.2.1, hhead0.2.2, Nat.zero_add]
  rcases htail with rfl | ⟨-, moduleIdentity, protoModule, repair, rfl, hrepair, hae⟩
  · refine ⟨by simp, by simp, by simp, ?_⟩
    intro before c later hsplit hc
    have hmem : c ∈ head := by
      have : c ∈ before ++ c :: later := by simp
      rw [← hsplit] at this
      simpa using this
    exact absurd hmem (hheadmem c hc)
  · refine ⟨?_, ?_, ?_, ?_⟩
    · rcases hrepair with rfl | rfl | ⟨rid, rfl⟩ <;>
        simp [pushCall, lookupCall, Call.isPush, List.countP_cons]
    · rcases hrepair with rfl | rfl | ⟨rid, rfl⟩ <;>
        simp [pushCall, lookupCall, Call.isLookup, List.countP_cons]
    · rcases hrepair with rfl | rfl | ⟨rid, rfl⟩ <;>
        simp [pushCall, lookupCall, Call.isCreateTag, List.countP_cons]
    · intro before c later hsplit hc
      have hne : c ≠ pushCall env moduleIdentity protoModule := by
        intro heq
        rw [heq] at hc
        simp [pushCall, Call.isLookup, Call.isCreateTag] at hc
      obtain ⟨hmem, hnonempty⟩ := mem_before_of_split _ c later repair head before
        (hheadmem c hc) hne hsplit.symm
      obtain ⟨pin, err, hpush, hcode⟩ := hae hnonempty
      exact ⟨_, _, _, _, _, _, pin, err, hmem, hpush, hcode⟩

end BufPushAction
